import Mathlib

/-!
Verification of the storage-and-sort core (b-tree cell codec, cursor
operations, balancer driver, external merge sorter): shallow embeddings of
the relevant routines, and theorems settling the specification's claims
against them.  Machine integers are modelled as Nat/Int with explicit
reductions mod 2^16 where the source converts to uint16; fallible steps
return Option/Except; external collaborators (the pager, the KeyInfo
comparator, the VFS) are parameters.
-/

namespace Wendigo

/-- Error codes used by the embedded routines (sqlite result codes). -/
def SQLITE_OK : Int := 0

/-- Generic error code returned by Cursor.Delete on a stale cursor. -/
def SQLITE_ERROR : Int := 1

/-- Out-of-memory code returned when an allocation fails. -/
def SQLITE_NOMEM : Int := 7

/-- Corruption code (SQLITE_CORRUPT_BKPT in the source). -/
def SQLITE_CORRUPT : Int := 11

/-! ## C1: CellInfo.ParsePtr payload-spill computation (btree/cellinfo.go) -/

/-- The three fields of CellInfo assigned by the payload-spill portion of
CellInfo.ParsePtr (cellinfo.go lines 45-72).  Local is stored through a
uint16 conversion, Overflow and Size are uint16 fields. -/
structure CellParse where
  Local : Nat
  Overflow : Nat
  Size : Nat
  deriving DecidableEq

/-- Payload-spill computation of CellInfo.ParsePtr (cellinfo.go lines 45-72),
taking the page's derived constants maxLocal, minLocal and usableSize, the
cell-content header size n (the value assigned to p.Header) and the declared
payload size.  uint16 conversions in the source are modelled as mod 65536. -/
def parsePtrSpill (maxLocal minLocal usableSize n payload : Nat) : CellParse :=
  if payload ≤ maxLocal then
    let size0 := (n + payload) % 65536
    { Local := payload % 65536
      Overflow := 0
      Size := if size0 < 4 then 4 else size0 }
  else
    let surplus := minLocal + (payload - minLocal) % (usableSize - 4)
    let lcl := if surplus ≤ maxLocal then surplus else minLocal
    let ovfl := (lcl % 65536 + n) % 65536
    { Local := lcl % 65536
      Overflow := ovfl
      Size := (ovfl + 4) % 65536 }

/-- Claim C1: for a page with derived constants maxLocal, minLocal and
usableSize (so minLocal ≤ maxLocal and maxLocal + header + 4 fits a uint16),
ParsePtr sets, when payload ≤ maxLocal: Local = payload, Overflow = 0 and
Size = max (Header + payload) 4; and when payload > maxLocal, with
surplus = minLocal + (payload - minLocal) mod (usableSize - 4):
Local = surplus if surplus ≤ maxLocal and Local = minLocal otherwise,
Overflow = Local + Header, and Size = Overflow + 4. -/
theorem parsePtrSpill_spec (maxLocal minLocal usableSize n payload : Nat)
    (hmm : minLocal ≤ maxLocal) (hbound : maxLocal + n + 4 < 65536) :
    (payload ≤ maxLocal →
      parsePtrSpill maxLocal minLocal usableSize n payload =
        { Local := payload, Overflow := 0, Size := max (n + payload) 4 }) ∧
    (maxLocal < payload →
      parsePtrSpill maxLocal minLocal usableSize n payload =
        (let surplus := minLocal + (payload - minLocal) % (usableSize - 4)
         let lcl := if surplus ≤ maxLocal then surplus else minLocal
         { Local := lcl, Overflow := lcl + n, Size := lcl + n + 4 })) := by
  constructor
  · intro hle
    have h1 : payload % 65536 = payload := Nat.mod_eq_of_lt (by omega)
    have h2 : (n + payload) % 65536 = n + payload := Nat.mod_eq_of_lt (by omega)
    have h3 : (if n + payload < 4 then 4 else n + payload) = max (n + payload) 4 := by
      split <;> omega
    simp only [parsePtrSpill, if_pos hle, h1, h2, h3]
  · intro hgt
    have hnotle : ¬ payload ≤ maxLocal := by omega
    simp only [parsePtrSpill, if_neg hnotle]
    set surplus := minLocal + (payload - minLocal) % (usableSize - 4) with hsurp
    by_cases hs : surplus ≤ maxLocal
    · have h1 : surplus % 65536 = surplus := Nat.mod_eq_of_lt (by omega)
      simp only [if_pos hs, h1]
      have h2 : (surplus + n) % 65536 = surplus + n := Nat.mod_eq_of_lt (by omega)
      simp only [h2]
      have h3 : (surplus + n + 4) % 65536 = surplus + n + 4 := Nat.mod_eq_of_lt (by omega)
      simp only [h3]
    · have h1 : minLocal % 65536 = minLocal := Nat.mod_eq_of_lt (by omega)
      simp only [if_neg hs, h1]
      have h2 : (minLocal + n) % 65536 = minLocal + n := Nat.mod_eq_of_lt (by omega)
      simp only [h2]
      have h3 : (minLocal + n + 4) % 65536 = minLocal + n + 4 := Nat.mod_eq_of_lt (by omega)
      simp only [h3]

/-- Witness for C1 at a concrete overflowing cell: usableSize 1024,
minLocal 23, maxLocal 1000, header 10, payload 4000; the surplus is
23 + 3977 mod 1020 = 940 ≤ 1000, so Local 940, Overflow 950, Size 954. -/
theorem parsePtrSpill_spec_witness :
    23 ≤ 1000 ∧ 1000 + 10 + 4 < 65536 ∧
      parsePtrSpill 1000 23 1024 10 4000 =
        { Local := 940, Overflow := 950, Size := 954 } :=
  ⟨by decide, by decide,
    ((parsePtrSpill_spec 1000 23 1024 10 4000 (by decide) (by decide)).2
      (by decide)).trans (by decide)⟩

/-! ## C10: Cursor.MoveToChild (btree/cursor.go lines 149-173) -/

/-- The per-page fields of MemoryPage that MoveToChild consults. -/
structure BtPage where
  nCell : Nat
  IsIntegerKey : Bool
  pgno : Nat
  deriving DecidableEq

/-- The cursor fields MoveToChild touches.  Pages and aiIdx are the
fixed-capacity arrays of the source, modelled as functions from depth. -/
structure MCCursor where
  pages : Nat → BtPage
  aiIdx : Nat → Nat
  iPage : Nat
  infoNSize : Nat
  validNKey : Bool

/-- Cursor.MoveToChild (cursor.go lines 149-173).  The pager call
pBt.GetPageAndInitialize(newPageNumber) is abstracted by its outcome
`fetch`: an error code, or the initialized child page.  maxDepth stands for
BTCURSOR_MAX_DEPTH. -/
def moveToChild (maxDepth : Nat) (fetch : Except Int BtPage) (cur : MCCursor) :
    Int × MCCursor :=
  let i := cur.iPage
  if cur.iPage ≥ maxDepth - 1 then (SQLITE_CORRUPT, cur)
  else
    match fetch with
    | .error rc => (rc, cur)
    | .ok pNewPage =>
      let cur2 : MCCursor :=
        { pages := fun j => if j = i + 1 then pNewPage else cur.pages j
          aiIdx := fun j => if j = i + 1 then 0 else cur.aiIdx j
          iPage := i + 1
          infoNSize := 0
          validNKey := false }
      if pNewPage.nCell < 1 ∨ pNewPage.IsIntegerKey ≠ (cur.pages i).IsIntegerKey then
        (SQLITE_CORRUPT, cur2)
      else
        (SQLITE_OK, cur2)

/-- Claim C10: at depth ≥ BTCURSOR_MAX_DEPTH - 1 MoveToChild returns
SQLITE_CORRUPT without descending; when the fetched child has fewer than one
cell or a mismatched integer-key flag it returns SQLITE_CORRUPT; otherwise
it returns SQLITE_OK, pushes the child page with cell index 0, increments
the depth and invalidates the cached CellInfo size and validNKey. -/
theorem moveToChild_spec (maxDepth : Nat) (fetch : Except Int BtPage)
    (cur : MCCursor) :
    (cur.iPage ≥ maxDepth - 1 →
      moveToChild maxDepth fetch cur = (SQLITE_CORRUPT, cur)) ∧
    (∀ pg, cur.iPage < maxDepth - 1 → fetch = .ok pg →
      ((pg.nCell < 1 ∨ pg.IsIntegerKey ≠ (cur.pages cur.iPage).IsIntegerKey →
        (moveToChild maxDepth fetch cur).1 = SQLITE_CORRUPT) ∧
       (1 ≤ pg.nCell → pg.IsIntegerKey = (cur.pages cur.iPage).IsIntegerKey →
        moveToChild maxDepth fetch cur =
          (SQLITE_OK,
           { pages := fun j => if j = cur.iPage + 1 then pg else cur.pages j
             aiIdx := fun j => if j = cur.iPage + 1 then 0 else cur.aiIdx j
             iPage := cur.iPage + 1
             infoNSize := 0
             validNKey := false })))) := by
  constructor
  · intro hd
    simp only [moveToChild, if_pos hd]
  · intro pg hd hf
    have hnd : ¬ cur.iPage ≥ maxDepth - 1 := by omega
    subst hf
    constructor
    · intro hbad
      simp only [moveToChild, if_neg hnd, if_pos hbad]
    · intro hc hk
      have hgood : ¬ (pg.nCell < 1 ∨ pg.IsIntegerKey ≠ (cur.pages cur.iPage).IsIntegerKey) := by
        push_neg
        exact ⟨by omega, hk⟩
      simp only [moveToChild, if_neg hnd, if_neg hgood]

/-- Witness for C10: a two-cell integer-key child fetched at depth 0 with
maxDepth 20 is pushed with index 0 and the cursor caches invalidated. -/
theorem moveToChild_spec_witness :
    (0 : Nat) < 20 - 1 ∧ (1 : Nat) ≤ 2 ∧
      (moveToChild 20 (.ok ⟨2, true, 7⟩)
        ⟨fun _ => ⟨3, true, 5⟩, fun _ => 4, 0, 9, true⟩).1 = SQLITE_OK := by
  refine ⟨by decide, by decide, ?_⟩
  have h := (moveToChild_spec 20 (.ok ⟨2, true, 7⟩)
      ⟨fun _ => ⟨3, true, 5⟩, fun _ => 4, 0, 9, true⟩).2
      ⟨2, true, 7⟩ (by decide) rfl
  rw [(h.2 (by decide) rfl)]

/-! ## C7: sqlite3VdbeSorterWrite (vdbesort.go lines 464-495) -/

/-- Sorter state relevant to sqlite3VdbeSorterWrite: the in-memory byte
count, the in-memory record list (pRecord), the two PMA thresholds and the
number of flushes to disk (calls of vdbeSorterListToPMA) so far. -/
structure SorterWState (α : Type) where
  nInMemory : Int
  pRecord : List α
  mnPmaSize : Int
  mxPmaSize : Int
  nFlushes : Nat

/-- sqlite3VdbeSorterWrite (vdbesort.go lines 464-495).  n is pVal.n, vLen
stands for VarintLen(pVal.n) (VarintLen is not among the sources), heapFull
for IsHeapNearlyFull(), mallocOk for whether sqlite3DbMallocRaw succeeds.
Returns the result code, the new state, and whether vdbeSorterListToPMA was
invoked (a flush writes the list to a PMA, empties it and zeroes
nInMemory).  Note the source bumps nInMemory before the allocation, so the
count is bumped even on SQLITE_NOMEM. -/
def sqlite3VdbeSorterWrite (st : SorterWState α) (v : α) (n vLen : Int)
    (heapFull mallocOk : Bool) : Int × SorterWState α × Bool :=
  let mem := st.nInMemory + vLen + n
  match mallocOk with
  | true =>
    if 0 < st.mxPmaSize ∧ (st.mxPmaSize < mem ∨ (st.mnPmaSize < mem ∧ heapFull = true)) then
      (SQLITE_OK,
       { st with nInMemory := 0, pRecord := [], nFlushes := st.nFlushes + 1 }, true)
    else
      (SQLITE_OK, { st with nInMemory := mem, pRecord := v :: st.pRecord }, false)
  | false =>
    (SQLITE_NOMEM, { st with nInMemory := mem }, false)

/-- The flush condition exactly as claim C7 states it: no mxPmaSize > 0
guard, only the byte-count tests. -/
def claimedFlushCond (st : SorterWState α) (n vLen : Int) (heapFull : Bool) : Prop :=
  st.mxPmaSize < st.nInMemory + vLen + n ∨
    (st.mnPmaSize < st.nInMemory + vLen + n ∧ heapFull = true)

/-- Counterexample to C7 as stated: with mxPmaSize = 0 (sqlite3VdbeSorterInit
leaves both thresholds 0 when temporary storage is in-memory; the struct
comment reads 0 == no limit), a successful write of a 5-byte record makes
the in-memory count 6, which exceeds mxPmaSize = 0, so the claim requires a
flush; the code's mxPmaSize > 0 guard means nothing is written. -/
theorem sorterWrite_claim_cex :
    claimedFlushCond (α := Unit) ⟨0, [], 0, 0, 0⟩ 5 1 false ∧
      (sqlite3VdbeSorterWrite (α := Unit) ⟨0, [], 0, 0, 0⟩ () 5 1 false true).2.2 = false := by
  constructor
  · left
    decide
  · rfl

/-- Claim C7 as amended: on a successful write the record is prepended and
varint(len) + len added to the in-memory count, and the list is flushed to a
PMA exactly when mxPmaSize > 0 and, after the addition, the count exceeds
mxPmaSize, or exceeds mnPmaSize with the heap near the memory-pressure
threshold; a flush zeroes the count and empties the list. -/
theorem sorterWrite_spec (α : Type) (st : SorterWState α) (v : α)
    (n vLen : Int) (heapFull : Bool) :
    (sqlite3VdbeSorterWrite st v n vLen heapFull true).1 = SQLITE_OK ∧
    ((sqlite3VdbeSorterWrite st v n vLen heapFull true).2.2 = true ↔
      (0 < st.mxPmaSize ∧ (st.mxPmaSize < st.nInMemory + vLen + n ∨
        (st.mnPmaSize < st.nInMemory + vLen + n ∧ heapFull = true)))) ∧
    ((sqlite3VdbeSorterWrite st v n vLen heapFull true).2.2 = false →
      (sqlite3VdbeSorterWrite st v n vLen heapFull true).2.1 =
        { st with nInMemory := st.nInMemory + vLen + n, pRecord := v :: st.pRecord }) ∧
    ((sqlite3VdbeSorterWrite st v n vLen heapFull true).2.2 = true →
      (sqlite3VdbeSorterWrite st v n vLen heapFull true).2.1 =
        { st with nInMemory := 0, pRecord := [], nFlushes := st.nFlushes + 1 }) := by
  by_cases hf : 0 < st.mxPmaSize ∧ (st.mxPmaSize < st.nInMemory + vLen + n ∨
      (st.mnPmaSize < st.nInMemory + vLen + n ∧ heapFull = true))
  · have e : sqlite3VdbeSorterWrite st v n vLen heapFull true =
        (SQLITE_OK,
         { st with nInMemory := 0, pRecord := [], nFlushes := st.nFlushes + 1 }, true) := by
      simp only [sqlite3VdbeSorterWrite]
      rw [if_pos hf]
    rw [e]
    exact ⟨rfl, by simp [hf], fun h => by simp at h, fun _ => rfl⟩
  · have e : sqlite3VdbeSorterWrite st v n vLen heapFull true =
        (SQLITE_OK,
         { st with nInMemory := st.nInMemory + vLen + n, pRecord := v :: st.pRecord },
         false) := by
      simp only [sqlite3VdbeSorterWrite]
      rw [if_neg hf]
    rw [e]
    exact ⟨rfl, by simp [hf], fun _ => rfl, fun h => by simp at h⟩

/-! ## C2 and C5: Cursor.Balance (btree/cursor.go lines 61-142) -/

/-- The MemoryPage fields Balance consults: the overflow-cell count, free
bytes, the table-leaf-with-data flag, the staged overflow cell's intended
position aiOvfl[0], the cell count and the page number. -/
structure MemPage where
  nOverflow : Nat
  nFree : Nat
  HasData : Bool
  aiOvfl0 : Nat
  nCell : Nat
  pgno : Nat
  deriving DecidableEq

/-- The cursor state Balance walks: the root-to-current page path and cell
indices (fixed-capacity arrays modelled as functions of the depth) and the
current depth iPage. -/
structure BalCursor where
  pages : Nat → MemPage
  aiIdx : Nat → Nat
  iPage : Nat

/-- Which balancing routine an iteration of Balance invoked. -/
inductive BalRoutine where
  | deeper
  | quick
  | nonroot
  | idle
  deriving DecidableEq

/-- The collaborators of Balance, abstracted by their outcomes: the pager
write of the parent page, and the three balancing routines, each returning a
result code and the updated pages on the cursor path (balance_deeper: the
rewritten root and the new child; balance_quick and BalanceNonroot: the
rewritten parent and current page). -/
structure BalanceEnv where
  writeRc : MemPage → Int
  deeper : MemPage → Int × MemPage × MemPage
  quick : MemPage → MemPage → Int × MemPage × MemPage
  nonroot : MemPage → Nat → Bool → MemPage → Int × MemPage × MemPage

/-- One iteration of the loop body of Cursor.Balance (cursor.go lines
68-132): at the root, an overfull page goes to balance_deeper (on success
the cursor descends to the new child with both indices zeroed); a balanced
page does nothing; otherwise the parent is made writable and either
balance_quick (table-leaf page with a single overflow cell staged at the
tail, parent not page 1, page rightmost in parent) or BalanceNonroot runs,
after which the source zeroes pPage.nOverflow, releases the page and
decrements iPage, whether or not the write or the routine succeeded. -/
def balanceStep (env : BalanceEnv) (usableSize : Nat) (cur : BalCursor) :
    Int × BalCursor × BalRoutine :=
  let nMin := usableSize * 2 / 3
  let pPage := cur.pages cur.iPage
  if cur.iPage = 0 then
    if pPage.nOverflow ≠ 0 then
      let r := env.deeper pPage
      if r.1 = SQLITE_OK then
        (SQLITE_OK,
         ⟨fun j => if j = 0 then r.2.1 else if j = 1 then r.2.2 else cur.pages j,
          fun j => if j ≤ 1 then 0 else cur.aiIdx j, 1⟩, .deeper)
      else (r.1, cur, .deeper)
    else (SQLITE_OK, cur, .idle)
  else if pPage.nOverflow = 0 ∧ pPage.nFree ≤ nMin then
    (SQLITE_OK, cur, .idle)
  else
    let pParent := cur.pages (cur.iPage - 1)
    let iIdx := cur.aiIdx (cur.iPage - 1)
    let wrc := env.writeRc pParent
    let step : Int × MemPage × MemPage × BalRoutine :=
      if wrc = SQLITE_OK then
        if pPage.HasData = true ∧ pPage.nOverflow = 1 ∧ pPage.aiOvfl0 = pPage.nCell ∧
            pParent.pgno ≠ 1 ∧ pParent.nCell = iIdx then
          let r := env.quick pParent pPage
          (r.1, r.2.1, r.2.2, .quick)
        else
          let r := env.nonroot pParent iIdx (decide (cur.iPage = 1)) pPage
          (r.1, r.2.1, r.2.2, .nonroot)
      else (wrc, pParent, pPage, .idle)
    (step.1,
     ⟨fun j => if j = cur.iPage then { step.2.2.1 with nOverflow := 0 }
               else if j = cur.iPage - 1 then step.2.1 else cur.pages j,
      cur.aiIdx, cur.iPage - 1⟩, step.2.2.2)

/-- The loop of Cursor.Balance: the body runs, then the source's bottom test
`if rc == SQLITE_OK { break }` exits the loop exactly when the iteration's
result code is SQLITE_OK (on any other code the loop runs again); the
function then returns rc.  Fuel bounds the iterations; none models a run
that has not exited within the fuel. -/
def cursorBalance (env : BalanceEnv) (usableSize : Nat) :
    Nat → BalCursor → Option (Int × BalCursor)
  | 0, _ => none
  | fuel + 1, cur =>
    let r := balanceStep env usableSize cur
    if r.1 = SQLITE_OK then some (SQLITE_OK, r.2.1)
    else cursorBalance env usableSize fuel r.2.1

/-- Modelled from the spec: balance_deeper is not among the sources; per
section 4.5 it allocates a new child, copies the root's contents into it
(overflow cells included - the source asserts pCur.Pages[1].nOverflow just
after the call) and leaves the root with the child as sole branch. -/
def balance_deeperSpec (root : MemPage) : Int × MemPage × MemPage :=
  (SQLITE_OK,
   { root with nOverflow := 0, nCell := 1, HasData := false },
   { root with pgno := root.pgno + 1 })

/-- Environment for the C2 evaluation: pager writes succeed, balance_deeper
as modelled from the spec, balance_quick and BalanceNonroot never reached on
the input below (they return their pages unchanged). -/
def envC2 : BalanceEnv :=
  { writeRc := fun _ => SQLITE_OK
    deeper := balance_deeperSpec
    quick := fun p q => (SQLITE_OK, p, q)
    nonroot := fun p _ _ q => (SQLITE_OK, p, q) }

/-- Cursor for the C2 evaluation: at the root (iPage 0), root page overfull
(nOverflow 1, nFree 10, 2 cells, page 2). -/
def curC2 : BalCursor :=
  ⟨fun _ => ⟨1, 10, true, 2, 2, 2⟩, fun _ => 0, 0⟩

/-- Claim C2 evaluated at the failing input: Balance on a cursor whose root
page is overfull performs one balance_deeper step and then exits its loop at
the `if rc == SQLITE_OK { break }` test, returning SQLITE_OK with the cursor
on the new child (iPage 1) whose nOverflow is still 1 - the page at the
cursor's position is overfull on successful return, which the claim (and the
code's own comments) rule out. -/
theorem cursorBalance_bug :
    (cursorBalance envC2 1024 10 curC2).map
        (fun r => (r.1, r.2.iPage, (r.2.pages r.2.iPage).nOverflow)) =
      some (SQLITE_OK, 1, 1) := by
  decide

/-! ### C5: selection of balance_quick -/

/-- The condition claim C5 states for choosing balance_quick: one staged
overflow cell appended at the tail, parent not the root page, page rightmost
in the parent - with no requirement on HasData.  The parent here is at depth
iPage - 1 ≥ 1 and its page number is not 1, so it is not the root page under
either reading. -/
def claimedQuickCond (cur : BalCursor) : Prop :=
  (cur.pages cur.iPage).nOverflow = 1 ∧
  (cur.pages cur.iPage).aiOvfl0 = (cur.pages cur.iPage).nCell ∧
  2 ≤ cur.iPage ∧ (cur.pages (cur.iPage - 1)).pgno ≠ 1 ∧
  (cur.pages (cur.iPage - 1)).nCell = cur.aiIdx (cur.iPage - 1)

/-- Cursor for the C5 counterexample: depth 2; the current page is an
index-tree page (HasData false) with exactly one overflow cell staged at the
tail (aiOvfl[0] = nCell = 3) and nFree 0; the parent (depth 1) has page
number 7 and nCell 4 = the child's index, so the page is the rightmost
child. -/
def curC5 : BalCursor :=
  ⟨fun j => if j = 2 then ⟨1, 0, false, 3, 3, 9⟩ else ⟨0, 0, false, 0, 4, 7⟩,
   fun _ => 4, 2⟩

/-- Counterexample to C5 as stated: every condition the claim lists holds of
curC5 (one overflow cell at the tail, parent below the root with page number
7 ≠ 1, rightmost child), yet the iteration chooses BalanceNonroot, because
the source additionally requires pPage.HasData and curC5's page is an
index-tree page. -/
theorem balanceStep_quick_cex :
    claimedQuickCond curC5 ∧
      (balanceStep envC2 1024 curC5).2.2 = BalRoutine.nonroot := by
  constructor
  · refine ⟨by decide, by decide, by decide, by decide, by decide⟩
  · decide

/-- Claim C5 as amended: in a loop iteration on a non-root page that needs
balancing and whose parent write succeeds, balance_quick is chosen exactly
when the page holds table-leaf data (HasData), has exactly one overflow cell
logically appended at the tail (aiOvfl[0] = nCell), the parent's page number
is not 1, and the parent's cell count equals the child's index in the
parent; in every other such case BalanceNonroot is chosen. -/
theorem balanceStep_quick_iff (env : BalanceEnv) (usableSize : Nat)
    (cur : BalCursor) (h0 : cur.iPage ≠ 0)
    (hneed : ¬ ((cur.pages cur.iPage).nOverflow = 0 ∧
      (cur.pages cur.iPage).nFree ≤ usableSize * 2 / 3))
    (hw : env.writeRc (cur.pages (cur.iPage - 1)) = SQLITE_OK) :
    ((balanceStep env usableSize cur).2.2 = BalRoutine.quick ↔
      ((cur.pages cur.iPage).HasData = true ∧
       (cur.pages cur.iPage).nOverflow = 1 ∧
       (cur.pages cur.iPage).aiOvfl0 = (cur.pages cur.iPage).nCell ∧
       (cur.pages (cur.iPage - 1)).pgno ≠ 1 ∧
       (cur.pages (cur.iPage - 1)).nCell = cur.aiIdx (cur.iPage - 1))) ∧
    ((balanceStep env usableSize cur).2.2 = BalRoutine.nonroot ↔
      ¬ ((cur.pages cur.iPage).HasData = true ∧
         (cur.pages cur.iPage).nOverflow = 1 ∧
         (cur.pages cur.iPage).aiOvfl0 = (cur.pages cur.iPage).nCell ∧
         (cur.pages (cur.iPage - 1)).pgno ≠ 1 ∧
         (cur.pages (cur.iPage - 1)).nCell = cur.aiIdx (cur.iPage - 1))) := by
  simp only [balanceStep, if_neg h0, if_neg hneed, if_pos hw]
  by_cases hq : (cur.pages cur.iPage).HasData = true ∧
      (cur.pages cur.iPage).nOverflow = 1 ∧
      (cur.pages cur.iPage).aiOvfl0 = (cur.pages cur.iPage).nCell ∧
      (cur.pages (cur.iPage - 1)).pgno ≠ 1 ∧
      (cur.pages (cur.iPage - 1)).nCell = cur.aiIdx (cur.iPage - 1)
  · rw [if_pos hq]
    exact ⟨by simpa using hq, by simpa using hq⟩
  · rw [if_neg hq]
    exact ⟨by simpa using hq, by simpa using hq⟩

/-- Witness for C5 (amended): the same state as curC5 but with HasData set
chooses balance_quick. -/
theorem balanceStep_quick_iff_witness :
    (⟨fun j => if j = 2 then ⟨1, 0, true, 3, 3, 9⟩ else ⟨0, 0, false, 0, 4, 7⟩,
      fun _ => 4, 2⟩ : BalCursor).iPage ≠ 0 ∧
    (balanceStep envC2 1024
      ⟨fun j => if j = 2 then ⟨1, 0, true, 3, 3, 9⟩ else ⟨0, 0, false, 0, 4, 7⟩,
       fun _ => 4, 2⟩).2.2 = BalRoutine.quick := by
  refine ⟨by decide, ?_⟩
  exact (balanceStep_quick_iff envC2 1024
    ⟨fun j => if j = 2 then ⟨1, 0, true, 3, 3, 9⟩ else ⟨0, 0, false, 0, 4, 7⟩,
     fun _ => 4, 2⟩ (by decide) (by decide) rfl).1.mpr
    ⟨rfl, rfl, rfl, by decide, rfl⟩

/-! ## C3: Cursor.Delete on an internal page (btree/cursor.go lines 177-266) -/

/-- A cell of an internal page: the 4-byte child-pointer prefix (the page
number of the cell's left child) and the cell body. -/
structure ICell (α : Type) where
  childPgno : Nat
  body : α
  deriving DecidableEq

/-- The state Cursor.Delete manipulates when the target cell sits on an
internal page: the cell index at that depth (aiIdx[iCellDepth]), the
internal page's cells, and the cells of the leaf that holds the largest
entry of the subtree headed by the target cell's left child (the page the
cursor sits on after sqlite3BtreePrevious). -/
structure DelState (α : Type) where
  iCellIdx : Nat
  internalCells : List (ICell α)
  leafCells : List α
  deriving DecidableEq

/-- Outcome of the internal-page path of Delete, up to and excluding the
balancing step: the rewritten internal page and leaf, and whether the cursor
was first moved to the predecessor (always, on this path). -/
structure DeleteOut (α : Type) where
  internalCells : List (ICell α)
  leafCells : List α
  movedToPredecessor : Bool
  deriving DecidableEq

/-- Cursor.Delete restricted to a target cell on an internal page
(cursor.go lines 193-251), up to and excluding the balancing step.
Modelled from the spec where the callee is not among the sources:
sqlite3BtreePrevious (section 4.4: moves to the in-order predecessor, the
largest entry of the subtree headed by the target cell's left child - hence
to the last cell of that subtree's rightmost leaf, while Pages[iCellDepth+1]
becomes the page whose number is the target cell's child pointer), dropCell
(removes the cell at an index) and InsertCell (inserts a cell before an
index, here with the 4-byte prefix set to the page number n).  The source
order is: Previous, drop the target from the internal page, then insert the
leaf's last cell with prefix n at the original index and drop it from the
leaf.  none models the SQLITE_ERROR guard (index out of range) and the
corrupt empty-leaf read. -/
def cursorDeleteInternal (st : DelState α) : Option (DeleteOut α) :=
  if h : st.iCellIdx < st.internalCells.length then
    let n := (st.internalCells.get ⟨st.iCellIdx, h⟩).childPgno
    let internal1 := st.internalCells.eraseIdx st.iCellIdx
    match st.leafCells.getLast? with
    | none => none
    | some lastCell =>
      let internal2 := internal1.insertIdx st.iCellIdx ⟨n, lastCell⟩
      some ⟨internal2, st.leafCells.dropLast, true⟩
  else none

/-- Inserting x at index i of a list that just lost its cell at index i is
the same as overwriting index i. -/
theorem insertIdx_eraseIdx_eq_set (l : List α) (i : Nat) (x : α)
    (h : i < l.length) : (l.eraseIdx i).insertIdx i x = l.set i x := by
  induction l generalizing i with
  | nil => simp at h
  | cons a l ih =>
    cases i with
    | zero => simp [List.eraseIdx, List.insertIdx]
    | succ j =>
      simp only [List.eraseIdx, List.insertIdx_succ_cons, List.set]
      rw [ih j (by simpa using h)]

/-- Claim C3: when the target cell lies on an internal page, Delete moves
the cursor to the in-order predecessor, and after dropping the target cell
the leaf's largest cell - prefixed with the descended child's page number -
is inserted at the original cell index (so the internal page's cell at that
index is replaced by it) and then dropped from the leaf. -/
theorem cursorDeleteInternal_spec (st : DelState α)
    (h : st.iCellIdx < st.internalCells.length) (hleaf : st.leafCells ≠ []) :
    cursorDeleteInternal st =
      some ⟨st.internalCells.set st.iCellIdx
              ⟨(st.internalCells.get ⟨st.iCellIdx, h⟩).childPgno,
               st.leafCells.getLast hleaf⟩,
            st.leafCells.dropLast, true⟩ := by
  have hlast : st.leafCells.getLast? = some (st.leafCells.getLast hleaf) :=
    List.getLast?_eq_getLast st.leafCells hleaf
  simp only [cursorDeleteInternal, dif_pos h, hlast]
  rw [insertIdx_eraseIdx_eq_set _ _ _ h]

/-- Witness for C3: internal page with cells (child 40, body 100) and
(child 41, body 200), target index 0, leaf [7, 9]; the separator is
replaced by cell (40, 9) and the leaf shrinks to [7]. -/
theorem cursorDeleteInternal_spec_witness :
    (0 : Nat) < 2 ∧ ([7, 9] : List Nat) ≠ [] ∧
      cursorDeleteInternal ⟨0, [⟨40, 100⟩, ⟨41, 200⟩], [7, 9]⟩ =
        some ⟨[⟨40, 9⟩, ⟨41, 200⟩], [7], true⟩ := by
  refine ⟨by decide, by decide, ?_⟩
  exact (cursorDeleteInternal_spec ⟨0, [⟨40, 100⟩, ⟨41, 200⟩], [7, 9]⟩
    (by decide) (by decide)).trans (by decide)

/-! ## C9: VdbeCursor.sorterCompare with bOmitRowid (vdbesort.go lines 215-236) -/

/-- VdbeCursor.sorterCompare (vdbesort.go lines 215-236).  key1 stays a
packed record of abstract type κ; the second key is taken already unpacked
(the pKey2 = nil path) as r2, a list of fields where none models an SQL NULL
(Mem.Value == nil).  recordCompare abstracts pKey1.RecordCompare(r2); its
Bool argument is the UNPACKED_PREFIX_MATCH flag.  With bOmitRowid the source
truncates r2 to pKeyInfo.nField fields (dropping the rowid), returns -1 as
soon as any of those fields is NULL, and otherwise compares with the
prefix-match flag set. -/
def sorterCompare (recordCompare : κ → List (Option V) → Bool → Int)
    (nField : Nat) (bOmitRowid : Bool) (pKey1 : κ) (r2 : List (Option V)) : Int :=
  match bOmitRowid with
  | true =>
    let r2t := r2.take nField
    if r2t.any (fun m => m.isNone) then -1
    else recordCompare pKey1 r2t true
  | false => recordCompare pKey1 r2 false

/-- Comparison of one unpacked field for the concrete comparator below:
NULL sorts before every value, values by the usual order. -/
def memCompare : Option Nat → Option Nat → Int
  | none, none => 0
  | none, some _ => -1
  | some _, none => 1
  | some a, some b => (a : Int) - (b : Int)

/-- A concrete RecordCompare for the C9 counterexample: lexicographic over
the unpacked fields, NULLs first; the prefix-match flag is irrelevant here. -/
def recCompareLex : List (Option Nat) → List (Option Nat) → Bool → Int
  | [], [], _ => 0
  | [], _ :: _, _ => -1
  | _ :: _, [], _ => 1
  | a :: l1, b :: l2, flag =>
    if memCompare a b = 0 then recCompareLex l1 l2 flag else memCompare a b

/-- Counterexample to C9 as stated: with bOmitRowid = true, key1 = [3]
(no NULL) and key2 = [NULL], the claim says the NULL-containing record
(key2) is treated as less than key1, i.e. the result should be positive
(key1 greater); sorterCompare returns -1 (key1 smaller), because the NULL
test in the source runs on r2 - the second key - and reports key1 < key2. -/
theorem sorterCompare_null_cex :
    sorterCompare recCompareLex 1 true [some 3] [none] = -1 ∧
      ¬ (0 : Int) < sorterCompare recCompareLex 1 true [some 3] [none] := by
  constructor
  · rfl
  · decide

/-- Claim C9 as amended: with bOmitRowid = true the rowid field is dropped
(only the first nField fields of the unpacked second key take part, and the
comparison runs with the prefix-match flag), and whenever the SECOND key -
the sorter's current key, unpacked as r2 - contains a NULL among those
fields, the result is -1: the first key is reported smaller, whatever its
contents. -/
theorem sorterCompare_null_spec (recordCompare : κ → List (Option V) → Bool → Int)
    (nField : Nat) (pKey1 : κ) (r2 : List (Option V)) :
    (((r2.take nField).any (fun m => m.isNone)) = true →
      sorterCompare recordCompare nField true pKey1 r2 = -1) ∧
    (((r2.take nField).any (fun m => m.isNone)) = false →
      sorterCompare recordCompare nField true pKey1 r2 =
        recordCompare pKey1 (r2.take nField) true) := by
  constructor
  · intro hnull
    simp only [sorterCompare, hnull]
    rfl
  · intro hnonull
    simp only [sorterCompare, hnonull]
    rfl

/-- Witness for C9 (amended): key2 = [NULL, 5] with nField 2 makes the
result -1. -/
theorem sorterCompare_null_spec_witness :
    (([none, some 5].take 2).any (fun m : Option Nat => m.isNone)) = true ∧
      sorterCompare recCompareLex 2 true [some 3, some 4] [none, some 5] = -1 :=
  ⟨by decide,
   (sorterCompare_null_spec recCompareLex 2 [some 3, some 4] [none, some 5]).1
     (by decide)⟩

/-! ## C8: VdbeSorterIter.Next (vdbesort.go lines 133-170) -/

/-- Modelled from the spec: Buffer.ReadVarint32 is not among the sources.
An SQLite varint is 1 to 9 bytes, big-endian, 7 payload bits per byte with
the high bit as continuation; a 9th byte contributes all 8 bits.  Returns
the decoded value and the rest of the buffer. -/
def readVarint32 : List Nat → Nat × List Nat :=
  go 8 0
where
  /-- fuel counts the remaining one-byte steps before the full 9th byte. -/
  go : Nat → Nat → List Nat → Nat × List Nat
  | _, acc, [] => (acc, [])
  | 0, acc, b :: rest => (acc * 256 + b, rest)
  | fuel + 1, acc, b :: rest =>
    if b < 128 then (acc * 128 + b, rest)
    else go fuel (acc * 128 + (b - 128)) rest

/-- State of a PMA iterator (struct VdbeSorterIter): the read offset, the
one-past-EOF offset, whether the file handle is non-nil, the file's bytes,
the Data buffer and the current Key. -/
structure IterState where
  iReadOff : Nat
  iEof : Nat
  fileOpen : Bool
  fileBytes : List Nat
  data : List Nat
  key : List Nat
  deriving DecidableEq

/-- sqlite3OsRead: amt bytes at offset off of the file, stored into the
first amt positions of the buffer buf. -/
def osRead (file : List Nat) (buf : List Nat) (amt off : Nat) : List Nat :=
  ((file.drop off).take amt) ++ buf.drop amt

/-- Store src into buf starting at position pos. -/
def storeAt (buf : List Nat) (pos : Nat) (src : List Nat) : List Nat :=
  buf.take pos ++ src ++ buf.drop (pos + src.length)

/-- VdbeSorterIter.Next (vdbesort.go lines 133-170).  Reads up to 5 bytes at
iReadOff; when no bytes remain before iEof it clears the iterator (file
handle nil, all fields zeroed) and returns SQLITE_OK.  Otherwise it decodes
the record-length varint (nRec, with iOff the varint's size), and if varint
plus record run past the bytes read it reads the remainder into the buffer
at position nRead.  Note two traits of the source kept here: the doubling
loop computes a bigger buffer into a local that is never assigned back, so
the Data buffer never grows; and the final advance is
iReadOff += len(Key) - the record length only, not varint size + record
length. -/
def vdbeSorterIterNext (st : IterState) : IterState × Int :=
  let nRead := if 5 < st.iEof - st.iReadOff then 5 else st.iEof - st.iReadOff
  if nRead = 0 then
    (⟨0, 0, false, st.fileBytes, [], []⟩, SQLITE_OK)
  else
    let data1 := osRead st.fileBytes st.data nRead st.iReadOff
    let l := data1.length
    let v := readVarint32 data1
    let nRec := v.1
    let iOff := l - v.2.length
    let data2 :=
      if nRead < iOff + nRec then
        storeAt data1 nRead
          ((st.fileBytes.drop (st.iReadOff + nRead)).take (iOff + nRec - nRead))
      else data1
    let key := (data2.drop iOff).take nRec
    ({ st with data := data2, key := key, iReadOff := st.iReadOff + key.length },
     SQLITE_OK)

/-- The iterator at the start of a two-record PMA whose content area is
[3, 7, 8, 9, 1, 5] (record [7,8,9] framed by varint 3, then record [5]
framed by varint 1), followed by the 8-byte zero tail; iEof = 6; a fresh
128-byte Data buffer. -/
def iterC8 : IterState :=
  ⟨0, 6, true, [3, 7, 8, 9, 1, 5, 0, 0, 0, 0, 0, 0, 0, 0], List.replicate 128 0, []⟩

set_option maxRecDepth 40000 in
/-- Claim C8 evaluated at the failing input: the first Next correctly
extracts Key = [7,8,9] but advances iReadOff to 3, not past the varint and
the record (offset 4); the second Next therefore misparses the last record
byte 9 as a record length and returns a 9-byte garbage key instead of [5]. -/
theorem vdbeSorterIterNext_bug :
    ((vdbeSorterIterNext iterC8).1.key, (vdbeSorterIterNext iterC8).1.iReadOff) =
        ([7, 8, 9], 3) ∧
      (0 + 1 + 3 : Nat) ≠ 3 ∧
      (vdbeSorterIterNext (vdbeSorterIterNext iterC8).1).1.key =
        [1, 5, 0, 0, 0, 0, 0, 0, 0] := by
  refine ⟨?_, by decide, ?_⟩
  · decide
  · decide

/-- The EOF half of claim C8 does hold: once iReadOff ≥ iEof, Next clears
the iterator - file handle nil, fields zeroed - and returns SQLITE_OK. -/
theorem vdbeSorterIterNext_eof (st : IterState) (h : st.iEof ≤ st.iReadOff) :
    vdbeSorterIterNext st = (⟨0, 0, false, st.fileBytes, [], []⟩, SQLITE_OK) := by
  have h5 : ¬ 5 < st.iEof - st.iReadOff := by omega
  have h0 : st.iEof - st.iReadOff = 0 := by omega
  simp only [vdbeSorterIterNext, if_neg h5, h0]
  rfl

/-- Witness for the EOF evaluation: an exhausted iterator clears itself. -/
theorem vdbeSorterIterNext_eof_witness :
    (6 : Nat) ≤ 6 ∧
      vdbeSorterIterNext ⟨6, 6, true, [3, 7], [9], [7]⟩ =
        (⟨0, 0, false, [3, 7], [], []⟩, SQLITE_OK) :=
  ⟨by decide, vdbeSorterIterNext_eof ⟨6, 6, true, [3, 7], [9], [7]⟩ (by decide)⟩

/-! ## C6: vdbeSorterSort and vdbeSorterMerge (vdbesort.go lines 325-389) -/

/-- The non-strict order a KeyInfo-driven comparator induces: key a sorts no
later than key b when the comparator reports a not greater than b. -/
def leC (cmp : α → α → Int) (a b : α) : Prop := cmp a b ≤ 0

/-- vdbeSorterMerge (vdbesort.go lines 325-352) with an explicit fuel equal
to the loop's iteration bound (the summed lengths); the fuel-exhausted
branch is never reached when the fuel is at least that bound.  The source's
pVal2 caching (passing 0 to skip re-unpacking an unchanged key2) does not
change which keys are compared, so each step compares the two heads. -/
def vdbeSorterMergeF (cmp : α → α → Int) : Nat → List α → List α → List α
  | 0, l1, l2 => l1 ++ l2
  | _ + 1, [], l2 => l2
  | _ + 1, a :: l1, [] => a :: l1
  | fuel + 1, a :: l1, b :: l2 =>
    if cmp a b ≤ 0 then a :: vdbeSorterMergeF cmp fuel l1 (b :: l2)
    else b :: vdbeSorterMergeF cmp fuel (a :: l1) l2

/-- vdbeSorterMerge: merge the two sorted lists p1 and p2 into one list,
taking from p1 on ties. -/
def vdbeSorterMerge (cmp : α → α → Int) (l1 l2 : List α) : List α :=
  vdbeSorterMergeF cmp (l1.length + l2.length) l1 l2

/-- The merge output is a permutation of the two inputs, whatever the fuel. -/
theorem vdbeSorterMergeF_perm (cmp : α → α → Int) :
    ∀ fuel l1 l2, (vdbeSorterMergeF cmp fuel l1 l2).Perm (l1 ++ l2) := by
  intro fuel
  induction fuel with
  | zero => intro l1 l2; exact List.Perm.refl _
  | succ fuel ih =>
    intro l1 l2
    match l1, l2 with
    | [], l2 => exact List.Perm.refl _
    | a :: l1, [] => simp [vdbeSorterMergeF]
    | a :: l1, b :: l2 =>
      by_cases hab : cmp a b ≤ 0
      · simpa [vdbeSorterMergeF, hab] using (ih l1 (b :: l2)).cons a
      · have h1 : (vdbeSorterMergeF cmp fuel (a :: l1) l2).Perm ((a :: l1) ++ l2) :=
          ih (a :: l1) l2
        have h2 : ((a :: l1) ++ (b :: l2)).Perm (b :: ((a :: l1) ++ l2)) :=
          List.perm_middle
        simpa [vdbeSorterMergeF, hab] using (h1.cons b).trans h2.symm

/-- Merging two sorted lists with enough fuel yields a sorted list. -/
theorem vdbeSorterMergeF_sorted (cmp : α → α → Int)
    (htot : ∀ a b, cmp a b ≤ 0 ∨ cmp b a ≤ 0)
    (htr : ∀ a b c, cmp a b ≤ 0 → cmp b c ≤ 0 → cmp a c ≤ 0) :
    ∀ fuel l1 l2, l1.length + l2.length ≤ fuel →
      l1.Sorted (leC cmp) → l2.Sorted (leC cmp) →
      (vdbeSorterMergeF cmp fuel l1 l2).Sorted (leC cmp) := by
  intro fuel
  induction fuel with
  | zero =>
    intro l1 l2 hlen h1 h2
    match l1, l2 with
    | [], l2 => simpa [vdbeSorterMergeF] using h2
    | a :: l1, l2 => simp at hlen
  | succ fuel ih =>
    intro l1 l2 hlen h1 h2
    match l1, l2 with
    | [], l2 => simpa [vdbeSorterMergeF] using h2
    | a :: l1, [] => simpa [vdbeSorterMergeF] using h1
    | a :: l1, b :: l2 =>
      rw [List.sorted_cons] at h1 h2
      by_cases hab : cmp a b ≤ 0
      · simp only [vdbeSorterMergeF, if_pos hab, List.sorted_cons]
        constructor
        · intro x hx
          rw [(vdbeSorterMergeF_perm cmp fuel l1 (b :: l2)).mem_iff] at hx
          rcases List.mem_append.1 hx with hx | hx
          · exact h1.1 x hx
          · rcases List.mem_cons.1 hx with rfl | hx
            · exact hab
            · exact htr a b x hab (h2.1 x hx)
        · exact ih l1 (b :: l2) (by simp at hlen ⊢; omega)
            h1.2 (List.sorted_cons.2 h2)
      · have hba : cmp b a ≤ 0 := (htot a b).resolve_left hab
        simp only [vdbeSorterMergeF, if_neg hab, List.sorted_cons]
        constructor
        · intro x hx
          rw [(vdbeSorterMergeF_perm cmp fuel (a :: l1) l2).mem_iff] at hx
          rcases List.mem_append.1 hx with hx | hx
          · rcases List.mem_cons.1 hx with rfl | hx
            · exact hba
            · exact htr b a x hba (h1.1 x hx)
          · exact h2.1 x hx
        · exact ih (a :: l1) l2 (by simp at hlen ⊢; omega)
            (List.sorted_cons.2 h1) h2.2

/-- vdbeSorterMerge permutes the concatenation of its inputs. -/
theorem vdbeSorterMerge_perm (cmp : α → α → Int) (l1 l2 : List α) :
    (vdbeSorterMerge cmp l1 l2).Perm (l1 ++ l2) :=
  vdbeSorterMergeF_perm cmp _ l1 l2

/-- vdbeSorterMerge preserves sortedness. -/
theorem vdbeSorterMerge_sorted (cmp : α → α → Int)
    (htot : ∀ a b, cmp a b ≤ 0 ∨ cmp b a ≤ 0)
    (htr : ∀ a b c, cmp a b ≤ 0 → cmp b c ≤ 0 → cmp a c ≤ 0)
    (l1 l2 : List α) (h1 : l1.Sorted (leC cmp)) (h2 : l2.Sorted (leC cmp)) :
    (vdbeSorterMerge cmp l1 l2).Sorted (leC cmp) :=
  vdbeSorterMergeF_sorted cmp htot htr _ l1 l2 (Nat.le_refl _) h1 h2

/-- The length of a merge is the sum of the input lengths. -/
theorem vdbeSorterMerge_length (cmp : α → α → Int) (l1 l2 : List α) :
    (vdbeSorterMerge cmp l1 l2).length = l1.length + l2.length := by
  have := (vdbeSorterMerge_perm cmp l1 l2).length_eq
  simpa using this

/-- The inner loop of vdbeSorterSort (vdbesort.go lines 374-378): walk the
slot array merging the carried list into each occupied slot (emptying it)
until an empty slot receives the carry; none models running off the end of
the 64-entry array (the source would index out of bounds). -/
def slotInsert (cmp : α → α → Int) : List α → List (List α) → Option (List (List α))
  | _, [] => none
  | c, s :: rest =>
    if s.isEmpty then some (c :: rest)
    else (slotInsert cmp (vdbeSorterMerge cmp c s) rest).map (fun r => [] :: r)

/-- The outer loop of vdbeSorterSort (vdbesort.go lines 370-380): each
record of the input list is detached as a singleton and inserted into the
slot array. -/
def slotsOf (cmp : α → α → Int) : List α → List (List α) → Option (List (List α))
  | [], slots => some slots
  | x :: xs, slots =>
    match slotInsert cmp [x] slots with
    | none => none
    | some slots2 => slotsOf cmp xs slots2

/-- The final sweep of vdbeSorterSort (vdbesort.go lines 382-385): merge
every slot into the accumulated list, in slot order. -/
def sweepSlots (cmp : α → α → Int) (slots : List (List α)) : List α :=
  slots.foldl (fun p s => vdbeSorterMerge cmp p s) []

/-- vdbeSorterSort (vdbesort.go lines 359-389): the 64-slot bucketed
bottom-up merge sort of the in-memory record list.  The comparator, a
sorterCompare(false, ...) driven by KeyInfo, is the parameter cmp. -/
def vdbeSorterSort (cmp : α → α → Int) (l : List α) : Option (List α) :=
  (slotsOf cmp l (List.replicate 64 [])).map (sweepSlots cmp)

/-- The slot-size invariant of the binary-counter structure: the slot at
offset j of the remaining array, when occupied, holds exactly 2 ^ (k + j)
records. -/
def SlotSizes : Nat → List (List α) → Prop
  | _, [] => True
  | k, s :: rest => (s ≠ [] → s.length = 2 ^ k) ∧ SlotSizes (k + 1) rest

/-- A fresh all-empty slot array satisfies the size invariant at any level. -/
theorem slotSizes_replicate (m : Nat) : ∀ k, SlotSizes (α := α) k (List.replicate m []) := by
  induction m with
  | zero => intro k; trivial
  | succ m ih => exact fun k => ⟨fun h => absurd rfl h, ih (k + 1)⟩

/-- Inserting a carry of exactly 2 ^ k records into a slot array that
satisfies the size invariant and has room (the total held plus the carry is
less than a full array's capacity) succeeds and preserves the size
invariant, sortedness of every slot, the array length and the multiset of
records. -/
theorem slotInsert_spec (cmp : α → α → Int)
    (htot : ∀ a b, cmp a b ≤ 0 ∨ cmp b a ≤ 0)
    (htr : ∀ a b c, cmp a b ≤ 0 → cmp b c ≤ 0 → cmp a c ≤ 0) :
    ∀ (slots : List (List α)) (k : Nat) (c : List α),
      SlotSizes k slots → c.length = 2 ^ k → c.Sorted (leC cmp) →
      (∀ s ∈ slots, s.Sorted (leC cmp)) →
      slots.flatten.length + 2 ^ k < 2 ^ (k + slots.length) →
      ∃ r, slotInsert cmp c slots = some r ∧ r.length = slots.length ∧
        SlotSizes k r ∧ (∀ s ∈ r, s.Sorted (leC cmp)) ∧
        r.flatten.Perm (c ++ slots.flatten) := by
  intro slots
  induction slots with
  | nil =>
    intro k c _ _ _ _ hroom
    simp only [List.flatten_nil, List.length_nil, Nat.add_zero] at hroom
    omega
  | cons s rest ih =>
    intro k c hsz hclen hcsort hsort hroom
    by_cases hempty : s.isEmpty
    · have hse : s = [] := List.isEmpty_iff.1 hempty
      refine ⟨c :: rest, by simp [slotInsert, hempty], by simp, ?_, ?_, ?_⟩
      · exact ⟨fun _ => hclen, hsz.2⟩
      · intro t ht
        rcases List.mem_cons.1 ht with rfl | ht
        · exact hcsort
        · exact hsort t (List.mem_cons_of_mem _ ht)
      · subst hse
        simp only [List.flatten_cons, List.nil_append]
        exact List.Perm.refl _
    · have hse : s ≠ [] := by
        intro h
        rw [h] at hempty
        simp at hempty
      have hslen : s.length = 2 ^ k := hsz.1 hse
      have hc2len : (vdbeSorterMerge cmp c s).length = 2 ^ (k + 1) := by
        rw [vdbeSorterMerge_length, hclen, hslen, pow_succ]
        omega
      have hc2sort : (vdbeSorterMerge cmp c s).Sorted (leC cmp) :=
        vdbeSorterMerge_sorted cmp htot htr c s hcsort (hsort s (List.mem_cons_self s rest))
      have hroom2 : rest.flatten.length + 2 ^ (k + 1) < 2 ^ (k + 1 + rest.length) := by
        have he : k + (rest.length + 1) = k + 1 + rest.length := by omega
        simp only [List.flatten_cons, List.length_append, List.length_cons] at hroom
        rw [hslen] at hroom
        rw [← he]
        have hp : (2 : Nat) ^ (k + 1) = 2 ^ k + 2 ^ k := by rw [pow_succ]; omega
        omega
      obtain ⟨r, hr, hrlen, hrsz, hrsort, hrperm⟩ :=
        ih (k + 1) (vdbeSorterMerge cmp c s) hsz.2 hc2len hc2sort
          (fun t ht => hsort t (List.mem_cons_of_mem _ ht)) hroom2
      refine ⟨[] :: r, ?_, by simpa using hrlen, ?_, ?_, ?_⟩
      · simp only [slotInsert, hempty, Bool.false_eq_true, if_false, hr]
        rfl
      · exact ⟨fun h => absurd rfl h, hrsz⟩
      · intro t ht
        rcases List.mem_cons.1 ht with rfl | ht
        · exact List.sorted_nil
        · exact hrsort t ht
      · have h1 : ([] :: r).flatten = r.flatten := by simp
        rw [h1, List.flatten_cons]
        have h2 : ((vdbeSorterMerge cmp c s) ++ rest.flatten).Perm ((c ++ s) ++ rest.flatten) :=
          (vdbeSorterMerge_perm cmp c s).append_right _
        have h3 : ((c ++ s) ++ rest.flatten).Perm (c ++ (s ++ rest.flatten)) := by
          rw [List.append_assoc]
        exact (hrperm.trans h2).trans h3

/-- Feeding every record of xs, as a singleton, into a slot array with room
for them all succeeds, preserving the array length and slot sortedness and
accumulating exactly the records of xs. -/
theorem slotsOf_spec (cmp : α → α → Int)
    (htot : ∀ a b, cmp a b ≤ 0 ∨ cmp b a ≤ 0)
    (htr : ∀ a b c, cmp a b ≤ 0 → cmp b c ≤ 0 → cmp a c ≤ 0) :
    ∀ (xs : List α) (slots : List (List α)),
      SlotSizes 0 slots → (∀ s ∈ slots, s.Sorted (leC cmp)) →
      xs.length + slots.flatten.length < 2 ^ slots.length →
      ∃ r, slotsOf cmp xs slots = some r ∧ r.length = slots.length ∧
        (∀ s ∈ r, s.Sorted (leC cmp)) ∧ r.flatten.Perm (xs ++ slots.flatten) := by
  intro xs
  induction xs with
  | nil =>
    intro slots hsz hsort _
    exact ⟨slots, rfl, rfl, hsort, by simp⟩
  | cons x xs ih =>
    intro slots hsz hsort hroom
    have hroom1 : slots.flatten.length + 2 ^ 0 < 2 ^ (0 + slots.length) := by
      simp only [pow_zero, Nat.zero_add]
      simp only [List.length_cons] at hroom
      omega
    obtain ⟨slots2, hins, hlen2, hsz2, hsort2, hperm2⟩ :=
      slotInsert_spec cmp htot htr slots 0 [x] hsz (by simp)
        (List.sorted_singleton x) hsort hroom1
    have hroom2 : xs.length + slots2.flatten.length < 2 ^ slots2.length := by
      have hj : slots2.flatten.length = ([x] ++ slots.flatten).length := hperm2.length_eq
      simp only [List.length_append, List.length_cons, List.length_nil] at hj
      rw [hlen2, hj]
      simp only [List.length_cons] at hroom
      omega
    obtain ⟨r, hr, hrlen, hrsort, hrperm⟩ := ih slots2 hsz2 hsort2 hroom2
    refine ⟨r, ?_, hlen2 ▸ hrlen, hrsort, ?_⟩
    · simp only [slotsOf, hins]
      exact hr
    · have h1 : (xs ++ slots2.flatten).Perm (xs ++ ([x] ++ slots.flatten)) :=
        hperm2.append_left xs
      have h2 : (xs ++ ([x] ++ slots.flatten)).Perm (x :: (xs ++ slots.flatten)) := by
        have h3 : (xs ++ x :: slots.flatten).Perm (x :: (xs ++ slots.flatten)) :=
          List.perm_middle
        simpa using h3
      exact (hrperm.trans h1).trans h2

/-- The final sweep accumulates exactly the records of every slot. -/
theorem sweepAux_perm (cmp : α → α → Int) :
    ∀ (slots : List (List α)) (acc : List α),
      (slots.foldl (fun p s => vdbeSorterMerge cmp p s) acc).Perm (acc ++ slots.flatten) := by
  intro slots
  induction slots with
  | nil => intro acc; simp
  | cons s rest ih =>
    intro acc
    have h1 := ih (vdbeSorterMerge cmp acc s)
    have h2 : ((vdbeSorterMerge cmp acc s) ++ rest.flatten).Perm ((acc ++ s) ++ rest.flatten) :=
      (vdbeSorterMerge_perm cmp acc s).append_right _
    have h3 : ((acc ++ s) ++ rest.flatten) = acc ++ (s ++ rest.flatten) := List.append_assoc _ _ _
    simpa [h3] using h1.trans h2

/-- The final sweep of sorted slots over a sorted accumulator is sorted. -/
theorem sweepAux_sorted (cmp : α → α → Int)
    (htot : ∀ a b, cmp a b ≤ 0 ∨ cmp b a ≤ 0)
    (htr : ∀ a b c, cmp a b ≤ 0 → cmp b c ≤ 0 → cmp a c ≤ 0) :
    ∀ (slots : List (List α)) (acc : List α), acc.Sorted (leC cmp) →
      (∀ s ∈ slots, s.Sorted (leC cmp)) →
      (slots.foldl (fun p s => vdbeSorterMerge cmp p s) acc).Sorted (leC cmp) := by
  intro slots
  induction slots with
  | nil => intro acc hacc _; exact hacc
  | cons s rest ih =>
    intro acc hacc hsort
    exact ih (vdbeSorterMerge cmp acc s)
      (vdbeSorterMerge_sorted cmp htot htr acc s hacc (hsort s (List.mem_cons_self s rest)))
      (fun t ht => hsort t (List.mem_cons_of_mem _ ht))

/-- Claim C6: for every in-memory record list of fewer than 2^64 records
(the capacity of the 64-slot binary counter; more would index past the
array), vdbeSorterSort - a total function here, so it terminates - succeeds
and returns a permutation of the input that is non-decreasing under the
KeyInfo-driven comparator, assumed total and transitive as the KeyInfo
contract requires. -/
theorem flatten_replicate_nil (m : Nat) : (List.replicate m ([] : List α)).flatten = [] := by
  induction m with
  | zero => rfl
  | succ m ih => simpa using ih

theorem vdbeSorterSort_spec (cmp : α → α → Int)
    (htot : ∀ a b, cmp a b ≤ 0 ∨ cmp b a ≤ 0)
    (htr : ∀ a b c, cmp a b ≤ 0 → cmp b c ≤ 0 → cmp a c ≤ 0)
    (l : List α) (hlen : l.length < 2 ^ 64) :
    ∃ out, vdbeSorterSort cmp l = some out ∧ out.Perm l ∧ out.Sorted (leC cmp) := by
  have hjoin : (List.replicate 64 ([] : List α)).flatten = [] := flatten_replicate_nil 64
  have hroom : l.length + (List.replicate 64 ([] : List α)).flatten.length <
      2 ^ (List.replicate 64 ([] : List α)).length := by
    rw [hjoin]
    simp only [List.length_nil, List.length_replicate, Nat.add_zero]
    exact hlen
  obtain ⟨r, hr, _, hrsort, hrperm⟩ :=
    slotsOf_spec cmp htot htr l (List.replicate 64 []) (slotSizes_replicate 64 0)
      (fun s hs => by rw [List.eq_of_mem_replicate hs]; exact List.sorted_nil) hroom
  refine ⟨sweepSlots cmp r, ?_, ?_, ?_⟩
  · simp only [vdbeSorterSort, hr]
    rfl
  · have h1 := sweepAux_perm cmp r []
    simp only [List.nil_append] at h1
    have h2 : (l ++ (List.replicate 64 ([] : List α)).flatten) = l := by
      rw [hjoin, List.append_nil]
    rw [h2] at hrperm
    exact h1.trans hrperm
  · exact sweepAux_sorted cmp htot htr r [] List.sorted_nil hrsort

/-- A concrete KeyInfo comparator on Nat keys: the difference, negative
exactly when the first key is smaller. -/
def cmpNat (a b : Nat) : Int := (a : Int) - (b : Int)

/-- cmpNat is total. -/
theorem cmpNat_total : ∀ a b, cmpNat a b ≤ 0 ∨ cmpNat b a ≤ 0 := by
  intro a b
  unfold cmpNat
  omega

/-- cmpNat is transitive. -/
theorem cmpNat_trans : ∀ a b c, cmpNat a b ≤ 0 → cmpNat b c ≤ 0 → cmpNat a c ≤ 0 := by
  intro a b c
  unfold cmpNat
  omega

/-- Witness for C6: the comparator on Nat keys sorts [2, 0, 1] into a
non-decreasing permutation. -/
theorem vdbeSorterSort_spec_witness :
    (∀ a b : Nat, cmpNat a b ≤ 0 ∨ cmpNat b a ≤ 0) ∧
      ([2, 0, 1] : List Nat).length < 2 ^ 64 ∧
      ∃ out, vdbeSorterSort cmpNat [2, 0, 1] = some out ∧
        out.Perm [2, 0, 1] ∧ out.Sorted (leC cmpNat) :=
  ⟨cmpNat_total, by decide,
   vdbeSorterSort_spec cmpNat cmpNat_total cmpNat_trans [2, 0, 1] (by decide)⟩

/-! ## C4: SorterDoCompare and SorterNext (vdbesort.go lines 239-269, 616-631) -/

/-- Order on iterator positions induced by the comparator: none models an
iterator at EOF (File == nil), which compares greater than any key. -/
def oLE (cmp : κ → κ → Int) : Option κ → Option κ → Bool
  | _, none => true
  | none, some _ => false
  | some a, some b => cmp a b ≤ 0

/-- The index SorterDoCompare stores: an EOF iterator loses; on two keys the
comparator decides, the first index winning ties (res ≤ 0 picks i1). -/
def winnerOf (cmp : κ → κ → Int) (aIter : Nat → Option κ) (i1 i2 : Nat) : Nat :=
  match aIter i1, aIter i2 with
  | none, _ => i2
  | some _, none => i1
  | some k1, some k2 => if cmp k1 k2 ≤ 0 then i1 else i2

/-- VdbeCursor.SorterDoCompare (vdbesort.go lines 239-269): recompute
aTree[iOut], comparing the two iterators below a leaf comparison
(iOut ≥ nTree/2) or the winners stored in the two child nodes. -/
def sorterDoCompare (cmp : κ → κ → Int) (nTree : Nat) (aIter : Nat → Option κ)
    (aTree : Nat → Nat) (iOut : Nat) : Nat → Nat :=
  let p := if nTree / 2 ≤ iOut
    then ((iOut - nTree / 2) * 2, (iOut - nTree / 2) * 2 + 1)
    else (aTree (iOut * 2), aTree (iOut * 2 + 1))
  fun j => if j = iOut then winnerOf cmp aIter p.1 p.2 else aTree j

/-- The recompute loop of SorterNext
(for i := (nTree + iPrev)/2; i > 0; i = i/2), with fuel equal to the start
index, which bounds the halving steps. -/
def recomputeFromF (cmp : κ → κ → Int) (nTree : Nat) (aIter : Nat → Option κ) :
    Nat → (Nat → Nat) → Nat → (Nat → Nat)
  | 0, aTree, _ => aTree
  | fuel + 1, aTree, i =>
    if i = 0 then aTree
    else recomputeFromF cmp nTree aIter fuel
      (sorterDoCompare cmp nTree aIter aTree i) (i / 2)

/-- The recompute loop started at index i. -/
def recomputeFrom (cmp : κ → κ → Int) (nTree : Nat) (aIter : Nat → Option κ)
    (aTree : Nat → Nat) (i : Nat) : Nat → Nat :=
  recomputeFromF cmp nTree aIter i aTree i

/-- VdbeCursor.SorterNext (vdbesort.go lines 616-631), aTree branch:
advance the iterator indexed by aTree[1] (newKey is what its Next() leaves
there - none once it clears itself at EOF), recompute the tree nodes from
the advanced iterator's leaf comparison up to the root, and report EOF when
the new aTree[1] indexes a cleared iterator. -/
def sorterNext (cmp : κ → κ → Int) (nTree : Nat) (aIter : Nat → Option κ)
    (aTree : Nat → Nat) (newKey : Option κ) :
    (Nat → Option κ) × (Nat → Nat) × Bool :=
  let iPrev := aTree 1
  let aIter2 := fun j => if j = iPrev then newKey else aIter j
  let aTree2 := recomputeFrom cmp nTree aIter2 aTree ((nTree + iPrev) / 2)
  (aIter2, aTree2, (aIter2 (aTree2 1)).isNone)

/-! ### Infrastructure: the iterator range below each tree node -/

/-- Floor base-2 logarithm, by structural recursion on a fuel bound. -/
def lgF : Nat → Nat → Nat
  | 0, _ => 0
  | fuel + 1, n => if n ≤ 1 then 0 else lgF fuel (n / 2) + 1

/-- Floor base-2 logarithm. -/
def lg (n : Nat) : Nat := lgF n n

/-- The fueled logarithm brackets its argument between consecutive powers. -/
theorem lgF_bounds : ∀ fuel n, 1 ≤ n → n ≤ fuel →
    2 ^ lgF fuel n ≤ n ∧ n < 2 ^ (lgF fuel n + 1) := by
  intro fuel
  induction fuel with
  | zero => intro n h1 h2; omega
  | succ fuel ih =>
    intro n h1 h2
    by_cases hn : n ≤ 1
    · have he : n = 1 := by omega
      subst he
      simp [lgF]
    · simp only [lgF, if_neg hn]
      have hh := ih (n / 2) (by omega) (by omega)
      rw [pow_succ, pow_succ]
      omega

/-- lg brackets its argument between consecutive powers of two. -/
theorem lg_bounds (n : Nat) (h : 1 ≤ n) : 2 ^ lg n ≤ n ∧ n < 2 ^ (lg n + 1) :=
  lgF_bounds n n h (Nat.le_refl n)

/-- lg is determined by the power-of-two bracket. -/
theorem lg_eq_of_bounds (n d : Nat) (h1 : 2 ^ d ≤ n) (h2 : n < 2 ^ (d + 1)) :
    lg n = d := by
  have hpos : 0 < (2 : Nat) ^ d := pow_pos (by norm_num) d
  have hb := lg_bounds n (by omega)
  rcases Nat.lt_trichotomy (lg n) d with hlt | heq | hgt
  · have hle : 2 ^ (lg n + 1) ≤ 2 ^ d := Nat.pow_le_pow_right (by norm_num) (by omega)
    omega
  · exact heq
  · have hle : 2 ^ (d + 1) ≤ 2 ^ lg n := Nat.pow_le_pow_right (by norm_num) (by omega)
    omega

/-- lg 1 = 0. -/
theorem lg_one : lg 1 = 0 :=
  lg_eq_of_bounds 1 0 (by norm_num) (by norm_num)

/-- The set of iterator indices that feed the tournament-tree node i (for
an aTree of nTree = M slots over M iterators, M a power of two): node i at
depth d covers a block of M / 2^d consecutive iterators. -/
def subIters (M i : Nat) : Finset Nat :=
  Finset.Ico ((i - 2 ^ lg i) * (M / 2 ^ lg i)) ((i + 1 - 2 ^ lg i) * (M / 2 ^ lg i))

/-- The depth of a node below the root is less than the tree height. -/
theorem lg_lt_of_lt (M h i : Nat) (hM : M = 2 ^ h) (h1 : 1 ≤ i) (hiM : i < M) :
    lg i < h := by
  have hb := lg_bounds i h1
  by_contra hge
  have hle : 2 ^ h ≤ 2 ^ lg i := Nat.pow_le_pow_right (by norm_num) (by omega)
  omega

/-- The root node covers every iterator. -/
theorem subIters_one (M h : Nat) (hM : M = 2 ^ h) (hh : 1 ≤ h) :
    subIters M 1 = Finset.Ico 0 M := by
  unfold subIters
  rw [lg_one]
  simp

/-- A leaf-comparison node i (one with M ≤ 2i) covers exactly the two
iterators 2i - M and 2i - M + 1. -/
theorem subIters_leaf (M h i : Nat) (hM : M = 2 ^ h) (h1 : 1 ≤ i) (hiM : i < M)
    (hleaf : M ≤ 2 * i) : subIters M i = Finset.Ico (2 * i - M) (2 * i - M + 2) := by
  have hh : 1 ≤ h := by
    by_contra hc
    have : h = 0 := by omega
    subst this
    simp only [pow_zero] at hM
    omega
  have hMhalf : M = 2 * 2 ^ (h - 1) := by
    have he : (2 : Nat) ^ h = 2 ^ (h - 1) * 2 := by
      rw [← pow_succ]
      congr 1
      omega
    rw [hM, he]
    ring
  have hd : lg i = h - 1 := by
    apply lg_eq_of_bounds
    · omega
    · have he : h - 1 + 1 = h := by omega
      rw [he, ← hM]
      exact hiM
  unfold subIters
  rw [hd]
  have hw : M / 2 ^ (h - 1) = 2 := by
    rw [hMhalf, Nat.mul_div_assoc 2 (dvd_refl _),
      Nat.div_self (pow_pos (by norm_num) _), mul_one]
  rw [hw]
  have hP : 2 ^ (h - 1) ≤ i := by omega
  have e1 : (i - 2 ^ (h - 1)) * 2 = 2 * i - M := by
    rw [Nat.sub_mul]
    omega
  have e2 : (i + 1 - 2 ^ (h - 1)) * 2 = 2 * i - M + 2 := by
    rw [Nat.sub_mul]
    omega
  rw [e1, e2]

/-- An internal node i (one with 2i < M) covers the union of its children's
blocks, the left child's block lying entirely below the right child's. -/
theorem subIters_children_split (M h i : Nat) (hM : M = 2 ^ h) (h1 : 1 ≤ i)
    (hint : 2 * i < M) :
    ∃ lo mid hi, subIters M i = Finset.Ico lo hi ∧
      subIters M (2 * i) = Finset.Ico lo mid ∧
      subIters M (2 * i + 1) = Finset.Ico mid hi ∧ lo ≤ mid ∧ mid ≤ hi := by
  have hiM : i < M := by omega
  have hd := lg_bounds i h1
  set d := lg i with hdd
  have hdh : d < h := lg_lt_of_lt M h i hM h1 hiM
  have hd2 : lg (2 * i) = d + 1 := by
    apply lg_eq_of_bounds
    · rw [pow_succ]
      omega
    · rw [pow_succ, pow_succ]
      omega
  have hd3 : lg (2 * i + 1) = d + 1 := by
    apply lg_eq_of_bounds
    · rw [pow_succ]
      omega
    · rw [pow_succ, pow_succ]
      omega
  have hwd : M / 2 ^ d = 2 ^ (h - d) := by
    rw [hM, Nat.pow_div (by omega) (by norm_num)]
  have hwd2 : M / 2 ^ (d + 1) = 2 ^ (h - (d + 1)) := by
    rw [hM, Nat.pow_div (by omega) (by norm_num)]
  have hww : 2 ^ (h - d) = 2 * 2 ^ (h - (d + 1)) := by
    have he : h - d = (h - (d + 1)) + 1 := by omega
    rw [he, pow_succ]
    ring
  set w := 2 ^ (h - (d + 1)) with hwdef
  have hwpos : 0 < w := pow_pos (by norm_num) _
  set a := i - 2 ^ d with hadef
  have hia : i = 2 ^ d + a := by omega
  refine ⟨a * (2 * w), (2 * a + 1) * w, (a + 1) * (2 * w), ?_, ?_, ?_, ?_, ?_⟩
  · unfold subIters
    rw [← hdd, hwd, hww]
    have e1 : (i - 2 ^ d) * (2 * w) = a * (2 * w) := by rw [← hadef]
    have e2 : (i + 1 - 2 ^ d) * (2 * w) = (a + 1) * (2 * w) := by
      have : i + 1 - 2 ^ d = a + 1 := by omega
      rw [this]
    rw [e1, e2]
  · unfold subIters
    rw [hd2, hwd2]
    have e1 : (2 * i - 2 ^ (d + 1)) * w = a * (2 * w) := by
      rw [pow_succ]
      have : 2 * i - 2 ^ d * 2 = 2 * a := by omega
      rw [this]
      ring
    have e2 : (2 * i + 1 - 2 ^ (d + 1)) * w = (2 * a + 1) * w := by
      rw [pow_succ]
      have : 2 * i + 1 - 2 ^ d * 2 = 2 * a + 1 := by omega
      rw [this]
    rw [e1, e2]
  · unfold subIters
    rw [hd3, hwd2]
    have e1 : (2 * i + 1 - 2 ^ (d + 1)) * w = (2 * a + 1) * w := by
      rw [pow_succ]
      have : 2 * i + 1 - 2 ^ d * 2 = 2 * a + 1 := by omega
      rw [this]
    have e2 : (2 * i + 1 + 1 - 2 ^ (d + 1)) * w = (a + 1) * (2 * w) := by
      rw [pow_succ]
      have : 2 * i + 1 + 1 - 2 ^ d * 2 = 2 * a + 2 := by omega
      rw [this]
      ring
    rw [e1, e2]
  · nlinarith
  · nlinarith

/-- Every iterator index a node covers is below M. -/
theorem subIters_lt (M h i : Nat) (hM : M = 2 ^ h) (h1 : 1 ≤ i) (hiM : i < M) :
    ∀ x ∈ subIters M i, x < M := by
  intro x hx
  have hb := lg_bounds i h1
  set d := lg i with hdd
  have hdh : d < h := lg_lt_of_lt M h i hM h1 hiM
  have hwd : M / 2 ^ d = 2 ^ (h - d) := by
    rw [hM, Nat.pow_div (by omega) (by norm_num)]
  unfold subIters at hx
  rw [← hdd, hwd] at hx
  have hup := (Finset.mem_Ico.1 hx).2
  have hle : (i + 1 - 2 ^ d) * 2 ^ (h - d) ≤ 2 ^ d * 2 ^ (h - d) := by
    apply Nat.mul_le_mul_right
    omega
  have hpow : 2 ^ d * 2 ^ (h - d) = M := by
    rw [hM, ← pow_add]
    congr 1
    omega
  omega

/-- A power of two with positive exponent is twice the previous power. -/
theorem pow_two_even (M h : Nat) (hM : M = 2 ^ h) (hh : 1 ≤ h) :
    M = 2 * 2 ^ (h - 1) := by
  have he : (2 : Nat) ^ h = 2 ^ (h - 1) * 2 := by
    rw [← pow_succ]
    congr 1
    omega
  rw [hM, he]
  ring

/-! ### The tournament invariant -/

/-- w is a valid winner index for the iterator set s: it lies in s, its
iterator is no greater than any iterator of s (EOF greatest), and when its
iterator holds a real key it is the least index of s achieving the minimum. -/
abbrev NodeOk (cmp : κ → κ → Int) (aIter : Nat → Option κ) (s : Finset Nat)
    (w : Nat) : Prop :=
  w ∈ s ∧ (∀ j ∈ s, oLE cmp (aIter w) (aIter j) = true) ∧
  ((aIter w).isSome = true → ∀ j ∈ s, j < w → oLE cmp (aIter j) (aIter w) = false)

/-- The tournament invariant at node i: aTree i is a valid winner for the
iterator block node i covers. -/
abbrev TreeInv (cmp : κ → κ → Int) (M : Nat) (aIter : Nat → Option κ)
    (aTree : Nat → Nat) (i : Nat) : Prop :=
  NodeOk cmp aIter (subIters M i) (aTree i)

/-- The tournament invariant at every node of the tree. -/
abbrev MergeInv (cmp : κ → κ → Int) (M : Nat) (aIter : Nat → Option κ)
    (aTree : Nat → Nat) : Prop :=
  ∀ i ∈ Finset.Ico 1 M, TreeInv cmp M aIter aTree i

/-- EOF is the greatest iterator position. -/
theorem oLE_none_right (cmp : κ → κ → Int) (x : Option κ) : oLE cmp x none = true := by
  cases x <;> rfl

/-- oLE on two keys is the comparator's verdict. -/
theorem oLE_some_iff (cmp : κ → κ → Int) (a b : κ) :
    oLE cmp (some a) (some b) = true ↔ cmp a b ≤ 0 := by
  simp [oLE]

/-- A position no greater than EOF is itself at EOF. -/
theorem oLE_none_forces (cmp : κ → κ → Int) (y : Option κ)
    (hy : oLE cmp none y = true) : y = none := by
  cases y with
  | none => rfl
  | some k => exact absurd hy (by simp [oLE])

/-- oLE is reflexive when the comparator is total. -/
theorem oLE_refl (cmp : κ → κ → Int) (htot : ∀ a b, cmp a b ≤ 0 ∨ cmp b a ≤ 0)
    (x : Option κ) : oLE cmp x x = true := by
  cases x with
  | none => rfl
  | some k =>
    rw [oLE_some_iff]
    rcases htot k k with hc | hc <;> exact hc

/-- A singleton block is its own valid winner. -/
theorem nodeOk_single (cmp : κ → κ → Int) (htot : ∀ a b, cmp a b ≤ 0 ∨ cmp b a ≤ 0)
    (aIter : Nat → Option κ) (a : Nat) :
    NodeOk cmp aIter (Finset.Ico a (a + 1)) a := by
  refine ⟨?_, ?_, ?_⟩
  · rw [Finset.mem_Ico]
    omega
  · intro j hj
    rw [Finset.mem_Ico] at hj
    have he : j = a := by omega
    subst he
    exact oLE_refl cmp htot _
  · intro _ j hj hlt
    rw [Finset.mem_Ico] at hj
    omega

/-- A valid winner is insensitive to iterator values outside its block. -/
theorem nodeOk_congr (cmp : κ → κ → Int) (aIter aIter2 : Nat → Option κ)
    (s : Finset Nat) (w : Nat) (hok : NodeOk cmp aIter s w)
    (heq : ∀ j ∈ s, aIter2 j = aIter j) : NodeOk cmp aIter2 s w := by
  obtain ⟨hm, hmin, htie⟩ := hok
  refine ⟨hm, ?_, ?_⟩
  · intro j hj
    rw [heq j hj, heq w hm]
    exact hmin j hj
  · intro hsome j hj hlt
    rw [heq w hm] at hsome
    rw [heq j hj, heq w hm]
    exact htie hsome j hj hlt

/-- Combining the valid winners of two adjacent blocks by winnerOf yields a
valid winner of the union: the comparison SorterDoCompare performs at one
node preserves the invariant. -/
theorem nodeOk_union (cmp : κ → κ → Int)
    (htot : ∀ a b, cmp a b ≤ 0 ∨ cmp b a ≤ 0)
    (htr : ∀ a b c, cmp a b ≤ 0 → cmp b c ≤ 0 → cmp a c ≤ 0)
    (aIter : Nat → Option κ) (s1 s2 : Finset Nat) (w1 w2 : Nat)
    (hlt : ∀ x ∈ s1, ∀ y ∈ s2, x < y)
    (h1 : NodeOk cmp aIter s1 w1) (h2 : NodeOk cmp aIter s2 w2) :
    NodeOk cmp aIter (s1 ∪ s2) (winnerOf cmp aIter w1 w2) := by
  obtain ⟨hm1, hmin1, htie1⟩ := h1
  obtain ⟨hm2, hmin2, htie2⟩ := h2
  have otr : ∀ x y z : Option κ, oLE cmp x y = true → oLE cmp y z = true →
      oLE cmp x z = true := by
    intro x y z hxy hyz
    cases z with
    | none => exact oLE_none_right cmp x
    | some c =>
      cases y with
      | none => exact absurd hyz (by simp [oLE])
      | some b =>
        cases x with
        | none => exact absurd hxy (by simp [oLE])
        | some a =>
          rw [oLE_some_iff] at hxy hyz ⊢
          exact htr a b c hxy hyz
  cases e1 : aIter w1 with
  | none =>
    have hw : winnerOf cmp aIter w1 w2 = w2 := by
      unfold winnerOf
      rw [e1]
    rw [hw]
    refine ⟨Finset.mem_union_right _ hm2, ?_, ?_⟩
    · intro j hj
      rcases Finset.mem_union.1 hj with hj | hj
      · have hz := hmin1 j hj
        rw [e1] at hz
        rw [oLE_none_forces cmp _ hz]
        exact oLE_none_right cmp _
      · exact hmin2 j hj
    · intro hsome j hj hlt2
      rcases Finset.mem_union.1 hj with hj | hj
      · have hz := hmin1 j hj
        rw [e1] at hz
        rw [oLE_none_forces cmp _ hz]
        cases e2 : aIter w2 with
        | none => rw [e2] at hsome; simp at hsome
        | some k2 => rfl
      · exact htie2 hsome j hj hlt2
  | some k1 =>
    cases e2 : aIter w2 with
    | none =>
      have hw : winnerOf cmp aIter w1 w2 = w1 := by
        unfold winnerOf
        rw [e1, e2]
      rw [hw]
      refine ⟨Finset.mem_union_left _ hm1, ?_, ?_⟩
      · intro j hj
        rcases Finset.mem_union.1 hj with hj | hj
        · exact hmin1 j hj
        · have hz := hmin2 j hj
          rw [e2] at hz
          rw [oLE_none_forces cmp _ hz]
          exact oLE_none_right cmp _
      · intro hsome j hj hlt2
        rcases Finset.mem_union.1 hj with hj | hj
        · exact htie1 hsome j hj hlt2
        · exact absurd (hlt w1 hm1 j hj) (by omega)
    | some k2 =>
      by_cases hc : cmp k1 k2 ≤ 0
      · have hw : winnerOf cmp aIter w1 w2 = w1 := by
          unfold winnerOf
          rw [e1, e2]
          simp [hc]
        rw [hw]
        refine ⟨Finset.mem_union_left _ hm1, ?_, ?_⟩
        · intro j hj
          rcases Finset.mem_union.1 hj with hj | hj
          · exact hmin1 j hj
          · refine otr (aIter w1) (aIter w2) (aIter j) ?_ (hmin2 j hj)
            rw [e1, e2, oLE_some_iff]
            exact hc
        · intro hsome j hj hlt2
          rcases Finset.mem_union.1 hj with hj | hj
          · exact htie1 hsome j hj hlt2
          · exact absurd (hlt w1 hm1 j hj) (by omega)
      · have hba : cmp k2 k1 ≤ 0 := (htot k1 k2).resolve_left hc
        have hw : winnerOf cmp aIter w1 w2 = w2 := by
          unfold winnerOf
          rw [e1, e2]
          simp [hc]
        rw [hw]
        refine ⟨Finset.mem_union_right _ hm2, ?_, ?_⟩
        · intro j hj
          rcases Finset.mem_union.1 hj with hj | hj
          · refine otr (aIter w2) (aIter w1) (aIter j) ?_ (hmin1 j hj)
            rw [e1, e2, oLE_some_iff]
            exact hba
          · exact hmin2 j hj
        · intro hsome j hj hlt2
          rcases Finset.mem_union.1 hj with hj | hj
          · have h13 := hmin1 j hj
            rw [e1] at h13
            cases e3 : aIter j with
            | none =>
              rw [e2]
              rfl
            | some k3 =>
              rw [e3] at h13
              rw [oLE_some_iff] at h13
              rw [e2]
              simp only [oLE]
              refine decide_eq_false ?_
              intro h32
              exact hc (htr k1 k3 k2 h13 h32)
          · exact htie2 hsome j hj hlt2

/-- One SorterDoCompare at node i re-establishes the invariant there, given
the invariant below it (at its children when it is an internal node). -/
theorem sorterDoCompare_inv (cmp : κ → κ → Int) (M h : Nat) (hM : M = 2 ^ h)
    (hh : 1 ≤ h)
    (htot : ∀ a b, cmp a b ≤ 0 ∨ cmp b a ≤ 0)
    (htr : ∀ a b c, cmp a b ≤ 0 → cmp b c ≤ 0 → cmp a c ≤ 0)
    (aIter : Nat → Option κ) (aTree : Nat → Nat) (i : Nat)
    (h1 : 1 ≤ i) (hiM : i < M)
    (hchild : 2 * i < M →
      TreeInv cmp M aIter aTree (2 * i) ∧ TreeInv cmp M aIter aTree (2 * i + 1)) :
    TreeInv cmp M aIter (sorterDoCompare cmp M aIter aTree i) i := by
  have hM2 := pow_two_even M h hM hh
  have hval : sorterDoCompare cmp M aIter aTree i i =
      (if M / 2 ≤ i then winnerOf cmp aIter ((i - M / 2) * 2) ((i - M / 2) * 2 + 1)
       else winnerOf cmp aIter (aTree (i * 2)) (aTree (i * 2 + 1))) := by
    by_cases hcase : M / 2 ≤ i <;> simp [sorterDoCompare, hcase]
  unfold TreeInv
  rw [hval]
  by_cases hleaf : M / 2 ≤ i
  · rw [if_pos hleaf]
    have hleaf2 : M ≤ 2 * i := by omega
    rw [subIters_leaf M h i hM h1 hiM hleaf2]
    have he1 : (i - M / 2) * 2 = 2 * i - M := by omega
    rw [he1]
    set a := 2 * i - M with hadef
    have hun : Finset.Ico a (a + 2) =
        Finset.Ico a (a + 1) ∪ Finset.Ico (a + 1) (a + 2) := by
      rw [Finset.Ico_union_Ico_eq_Ico (by omega) (by omega)]
    rw [hun]
    exact nodeOk_union cmp htot htr aIter _ _ a (a + 1)
      (fun x hx y hy => by rw [Finset.mem_Ico] at hx hy; omega)
      (nodeOk_single cmp htot aIter a) (nodeOk_single cmp htot aIter (a + 1))
  · rw [if_neg hleaf]
    have hint : 2 * i < M := by omega
    obtain ⟨hL, hR⟩ := hchild hint
    obtain ⟨lo, mid, hi2, hsi, hsl, hsr, hlm, hmh⟩ :=
      subIters_children_split M h i hM h1 hint
    rw [hsi]
    have hml : i * 2 = 2 * i := Nat.mul_comm i 2
    rw [hml]
    unfold TreeInv at hL hR
    rw [hsl] at hL
    rw [hsr] at hR
    have hres := nodeOk_union cmp htot htr aIter (Finset.Ico lo mid)
      (Finset.Ico mid hi2) (aTree (2 * i)) (aTree (2 * i + 1))
      (fun x hx y hy => by rw [Finset.mem_Ico] at hx hy; omega) hL hR
    rw [Finset.Ico_union_Ico_eq_Ico hlm hmh] at hres
    exact hres

/-! ### The ancestor chain of the advanced iterator -/

/-- Node i lies on the halving chain that starts at startIdx. -/
def OnChain (startIdx i : Nat) : Prop := ∃ k, startIdx / 2 ^ k = i

/-- The chain starts at its own start index. -/
theorem onChain_self (j : Nat) : OnChain j j := ⟨0, by simp⟩

/-- The chain of j continues with the chain of j / 2. -/
theorem onChain_of_half {j i : Nat} (hc : OnChain (j / 2) i) : OnChain j i := by
  obtain ⟨k, hk⟩ := hc
  refine ⟨k + 1, ?_⟩
  rw [show (2 : Nat) ^ (k + 1) = 2 * 2 ^ k from by ring, ← Nat.div_div_eq_div_mul]
  exact hk

/-- A chain element is the start or on the half chain. -/
theorem onChain_cases {j i : Nat} (hc : OnChain j i) : i = j ∨ OnChain (j / 2) i := by
  obtain ⟨k, hk⟩ := hc
  cases k with
  | zero =>
    left
    simpa using hk.symm
  | succ k =>
    right
    refine ⟨k, ?_⟩
    rw [← hk, show (2 : Nat) ^ (k + 1) = 2 * 2 ^ k from by ring,
      ← Nat.div_div_eq_div_mul]

/-- Chain elements never exceed the start index. -/
theorem not_onChain_of_lt {j i : Nat} (hji : j < i) : ¬ OnChain j i := by
  rintro ⟨k, hk⟩
  have hle := Nat.div_le_self j (2 ^ k)
  omega

/-- The chain of 0 holds only 0. -/
theorem onChain_zero {i : Nat} (hc : OnChain 0 i) : i = 0 := by
  obtain ⟨k, hk⟩ := hc
  simpa using hk.symm

/-- The leaf-comparison node of iterator prev, (M + prev) / 2: its position,
and that it covers prev. -/
theorem prev_leaf_facts (M h prev : Nat) (hM : M = 2 ^ h) (hh : 1 ≤ h)
    (hprev : prev < M) :
    1 ≤ (M + prev) / 2 ∧ (M + prev) / 2 < M ∧ M ≤ 2 * ((M + prev) / 2) ∧
      prev ∈ subIters M ((M + prev) / 2) := by
  have hM2 := pow_two_even M h hM hh
  have hB : 0 < 2 ^ (h - 1) := pow_pos (by norm_num) _
  have hl1 : 1 ≤ (M + prev) / 2 := by omega
  have hlM : (M + prev) / 2 < M := by omega
  have hleaf : M ≤ 2 * ((M + prev) / 2) := by omega
  refine ⟨hl1, hlM, hleaf, ?_⟩
  rw [subIters_leaf M h _ hM hl1 hlM hleaf, Finset.mem_Ico]
  omega

/-- A node's block is inside its parent's block. -/
theorem subIters_subset_parent (M h j : Nat) (hM : M = 2 ^ h) (hh : 1 ≤ h)
    (h2 : 2 ≤ j) (hjM : j < M) : subIters M j ⊆ subIters M (j / 2) := by
  have hM2 := pow_two_even M h hM hh
  have h1 : 1 ≤ j / 2 := by omega
  have hint : 2 * (j / 2) < M := by omega
  obtain ⟨lo, mid, hi2, hsi, hsl, hsr, hlm, hmh⟩ :=
    subIters_children_split M h (j / 2) hM h1 hint
  have hcases : j = 2 * (j / 2) ∨ j = 2 * (j / 2) + 1 := by omega
  intro x hx
  rw [hsi, Finset.mem_Ico]
  rcases hcases with he | he
  · rw [he, hsl, Finset.mem_Ico] at hx
    omega
  · rw [he, hsr, Finset.mem_Ico] at hx
    omega

/-- Every node on the chain of prev's leaf comparison covers prev. -/
theorem chain_mem (M h prev : Nat) (hM : M = 2 ^ h) (hh : 1 ≤ h) (hprev : prev < M) :
    ∀ k, 1 ≤ (M + prev) / 2 / 2 ^ k →
      prev ∈ subIters M ((M + prev) / 2 / 2 ^ k) := by
  intro k
  induction k with
  | zero =>
    intro _
    simpa using (prev_leaf_facts M h prev hM hh hprev).2.2.2
  | succ k ih =>
    intro hk1
    have heq : (M + prev) / 2 / 2 ^ (k + 1) = ((M + prev) / 2 / 2 ^ k) / 2 := by
      rw [show (2 : Nat) ^ (k + 1) = 2 ^ k * 2 from by ring, ← Nat.div_div_eq_div_mul]
    rw [heq]
    rw [heq] at hk1
    have h2j : 2 ≤ (M + prev) / 2 / 2 ^ k := by omega
    have hjM : (M + prev) / 2 / 2 ^ k < M := by
      have hle := Nat.div_le_self ((M + prev) / 2) (2 ^ k)
      have hlM := (prev_leaf_facts M h prev hM hh hprev).2.1
      omega
    exact subIters_subset_parent M h _ hM hh h2j hjM (ih (by omega))

/-- A node that covers prev lies on the chain of prev's leaf comparison. -/
theorem mem_imp_onChain (M h prev : Nat) (hM : M = 2 ^ h) (hh : 1 ≤ h)
    (hprev : prev < M) (i : Nat) (h1 : 1 ≤ i) (hiM : i < M)
    (hmem : prev ∈ subIters M i) : OnChain ((M + prev) / 2) i := by
  have hM2 := pow_two_even M h hM hh
  by_cases hleaf : M ≤ 2 * i
  · rw [subIters_leaf M h i hM h1 hiM hleaf, Finset.mem_Ico] at hmem
    refine ⟨0, ?_⟩
    simp only [pow_zero, Nat.div_one]
    omega
  · have hint : 2 * i < M := by omega
    obtain ⟨lo, mid, hi2, hsi, hsl, hsr, hlm, hmh⟩ :=
      subIters_children_split M h i hM h1 hint
    rw [hsi, Finset.mem_Ico] at hmem
    have hodd : 2 * i + 1 < M := by omega
    by_cases hside : prev < mid
    · have hmem2 : prev ∈ subIters M (2 * i) := by
        rw [hsl, Finset.mem_Ico]
        omega
      obtain ⟨k, hk⟩ :=
        mem_imp_onChain M h prev hM hh hprev (2 * i) (by omega) hint hmem2
      refine ⟨k + 1, ?_⟩
      rw [show (2 : Nat) ^ (k + 1) = 2 ^ k * 2 from by ring,
        ← Nat.div_div_eq_div_mul, hk]
      omega
    · have hmem2 : prev ∈ subIters M (2 * i + 1) := by
        rw [hsr, Finset.mem_Ico]
        omega
      obtain ⟨k, hk⟩ :=
        mem_imp_onChain M h prev hM hh hprev (2 * i + 1) (by omega) hodd hmem2
      refine ⟨k + 1, ?_⟩
      rw [show (2 : Nat) ^ (k + 1) = 2 ^ k * 2 from by ring,
        ← Nat.div_div_eq_div_mul, hk]
      omega
termination_by M - i
decreasing_by
  all_goals omega

/-- A node covers prev exactly when it is an ancestor of prev's leaf
comparison - when SorterNext's recompute loop visits it. -/
theorem mem_iff_onChain (M h prev : Nat) (hM : M = 2 ^ h) (hh : 1 ≤ h)
    (hprev : prev < M) (i : Nat) (h1 : 1 ≤ i) (hiM : i < M) :
    prev ∈ subIters M i ↔ OnChain ((M + prev) / 2) i := by
  constructor
  · exact mem_imp_onChain M h prev hM hh hprev i h1 hiM
  · rintro ⟨k, hk⟩
    have hres := chain_mem M h prev hM hh hprev k (by rw [hk]; exact h1)
    rw [hk] at hres
    exact hres

/-! ### The recompute loop -/

/-- The value of the fueled recompute loop does not depend on the fuel, once
the fuel covers the start index. -/
theorem recomputeFromF_fuel (cmp : κ → κ → Int) (M : Nat) (aIter : Nat → Option κ) :
    ∀ f1 f2 (aTree : Nat → Nat) (i : Nat), i ≤ f1 → i ≤ f2 →
      recomputeFromF cmp M aIter f1 aTree i = recomputeFromF cmp M aIter f2 aTree i := by
  intro f1
  induction f1 with
  | zero =>
    intro f2 aTree i hi1 hi2
    have h0 : i = 0 := by omega
    subst h0
    cases f2 with
    | zero => rfl
    | succ f2 => simp [recomputeFromF]
  | succ f1 ih =>
    intro f2 aTree i hi1 hi2
    by_cases h0 : i = 0
    · subst h0
      cases f2 with
      | zero => rfl
      | succ f2 => simp [recomputeFromF]
    · cases f2 with
      | zero => omega
      | succ f2 =>
        simp only [recomputeFromF, if_neg h0]
        exact ih f2 _ (i / 2) (by omega) (by omega)

/-- Unfolding the recompute loop one step. -/
theorem recomputeFrom_succ (cmp : κ → κ → Int) (M : Nat) (aIter : Nat → Option κ)
    (aTree : Nat → Nat) (i : Nat) (hpos : 1 ≤ i) :
    recomputeFrom cmp M aIter aTree i =
      recomputeFrom cmp M aIter (sorterDoCompare cmp M aIter aTree i) (i / 2) := by
  unfold recomputeFrom
  cases i with
  | zero => omega
  | succ m =>
    simp only [recomputeFromF, if_neg (Nat.succ_ne_zero m)]
    exact recomputeFromF_fuel cmp M aIter m ((m + 1) / 2) _ ((m + 1) / 2)
      (by omega) (by omega)

/-- The recompute loop started at j changes no node off the chain of j. -/
theorem recomputeFrom_offChain (cmp : κ → κ → Int) (M : Nat) (aIter : Nat → Option κ)
    (x j : Nat) (aTree : Nat → Nat) (hx : ¬ OnChain j x) :
    recomputeFrom cmp M aIter aTree j x = aTree x := by
  rcases Nat.eq_zero_or_pos j with h0 | hpos
  · subst h0
    rfl
  · rw [recomputeFrom_succ cmp M aIter aTree j hpos]
    have hx2 : ¬ OnChain (j / 2) x := fun hc => hx (onChain_of_half hc)
    rw [recomputeFrom_offChain cmp M aIter x (j / 2) _ hx2]
    have hxj : x ≠ j := fun he => hx (he ▸ onChain_self j)
    simp [sorterDoCompare, hxj]
termination_by j
decreasing_by
  all_goals omega

/-- The recompute loop started at a node j below the root restores the
invariant everywhere, provided every node off the chain of j satisfied it
on entry (the loop recomputes the chain bottom-up, each node combining the
final values of its children). -/
theorem recomputeFrom_inv (cmp : κ → κ → Int) (M h : Nat) (hM : M = 2 ^ h)
    (hh : 1 ≤ h)
    (htot : ∀ a b, cmp a b ≤ 0 ∨ cmp b a ≤ 0)
    (htr : ∀ a b c, cmp a b ≤ 0 → cmp b c ≤ 0 → cmp a c ≤ 0)
    (aIter : Nat → Option κ) (j : Nat) (aTree : Nat → Nat)
    (hj1 : 1 ≤ j) (hjM : j < M)
    (hpre : ∀ x, 1 ≤ x → x < M → ¬ OnChain j x → TreeInv cmp M aIter aTree x) :
    ∀ x, 1 ≤ x → x < M →
      TreeInv cmp M aIter (recomputeFrom cmp M aIter aTree j) x := by
  have hM2 := pow_two_even M h hM hh
  have hstep : ∀ y, 1 ≤ y → y < M → ¬ OnChain (j / 2) y →
      TreeInv cmp M aIter (sorterDoCompare cmp M aIter aTree j) y := by
    intro y hy1 hyM hyc
    by_cases hyj : y = j
    · subst hyj
      apply sorterDoCompare_inv cmp M h hM hh htot htr aIter aTree y hy1 hyM
      intro hint
      have hodd : 2 * y + 1 < M := by omega
      constructor
      · exact hpre (2 * y) (by omega) hint (not_onChain_of_lt (by omega))
      · exact hpre (2 * y + 1) (by omega) hodd (not_onChain_of_lt (by omega))
    · have hyc2 : ¬ OnChain j y := by
        intro hc
        rcases onChain_cases hc with he | hc2
        · exact hyj he
        · exact hyc hc2
      have hpy := hpre y hy1 hyM hyc2
      have hval : sorterDoCompare cmp M aIter aTree j y = aTree y := by
        simp [sorterDoCompare, hyj]
      unfold TreeInv at hpy ⊢
      rw [hval]
      exact hpy
  intro x hx1 hxM
  rw [recomputeFrom_succ cmp M aIter aTree j hj1]
  rcases Nat.eq_zero_or_pos (j / 2) with h0 | hpos2
  · have hni : ¬ OnChain (j / 2) x := by
      rw [h0]
      intro hc
      have := onChain_zero hc
      omega
    have hres := hstep x hx1 hxM hni
    rw [h0]
    exact hres
  · exact recomputeFrom_inv cmp M h hM hh htot htr aIter (j / 2)
      (sorterDoCompare cmp M aIter aTree j) hpos2
      (lt_of_le_of_lt (Nat.div_le_self j 2) hjM) hstep x hx1 hxM
termination_by j
decreasing_by
  all_goals omega

/-- SorterNext preserves the tournament invariant: it recomputes exactly the
chain of the advanced iterator's leaf comparison, every other node's block
being untouched by the advance. -/
theorem sorterNext_inv (cmp : κ → κ → Int) (M h : Nat) (hM : M = 2 ^ h)
    (hh : 1 ≤ h)
    (htot : ∀ a b, cmp a b ≤ 0 ∨ cmp b a ≤ 0)
    (htr : ∀ a b c, cmp a b ≤ 0 → cmp b c ≤ 0 → cmp a c ≤ 0)
    (aIter : Nat → Option κ) (aTree : Nat → Nat) (newKey : Option κ)
    (hinv : MergeInv cmp M aIter aTree) :
    MergeInv cmp M (sorterNext cmp M aIter aTree newKey).1
      (sorterNext cmp M aIter aTree newKey).2.1 := by
  have hM2 := pow_two_even M h hM hh
  have hB : 0 < 2 ^ (h - 1) := pow_pos (by norm_num) _
  have h1M : 1 < M := by omega
  have hroot : NodeOk cmp aIter (subIters M 1) (aTree 1) :=
    hinv 1 (Finset.mem_Ico.2 ⟨le_refl 1, h1M⟩)
  have hprevM : aTree 1 < M := by
    have hmem := hroot.1
    rw [subIters_one M h hM hh, Finset.mem_Ico] at hmem
    exact hmem.2
  obtain ⟨hl1, hlM, hleaf, hlmem⟩ := prev_leaf_facts M h (aTree 1) hM hh hprevM
  show MergeInv cmp M (fun j => if j = aTree 1 then newKey else aIter j)
    (recomputeFrom cmp M (fun j => if j = aTree 1 then newKey else aIter j)
      aTree ((M + aTree 1) / 2))
  intro i hi
  rw [Finset.mem_Ico] at hi
  refine recomputeFrom_inv cmp M h hM hh htot htr _ ((M + aTree 1) / 2) aTree
    hl1 hlM ?_ i hi.1 hi.2
  intro x hx1 hxM hxc
  have hx := hinv x (Finset.mem_Ico.2 ⟨hx1, hxM⟩)
  have hnm : aTree 1 ∉ subIters M x := by
    intro hmm
    exact hxc ((mem_iff_onChain M h (aTree 1) hM hh hprevM x hx1 hxM).1 hmm)
  refine nodeOk_congr cmp aIter _ _ _ hx ?_
  intro j hj
  have hne : j ≠ aTree 1 := fun he => hnm (he ▸ hj)
  simp [hne]

/-- Claim C4 as amended: after SorterNext on a well-formed merge state
(M = nTree a power of two, the tournament invariant holding, the comparator
total and transitive per the KeyInfo contract), aTree[1] indexes an iterator
whose position is minimal among all M under the order with EOF greater than
any key; and when that minimum is a real key (not EOF), aTree[1] is the
LOWEST index attaining it.  (When two compared candidates are both at EOF
the source keeps the higher index, so with every iterator at EOF aTree[1]
need not be the lowest index - the deviation claim C4's tie-break clause
misses.) -/
theorem sorterNext_min (cmp : κ → κ → Int) (M h : Nat) (hM : M = 2 ^ h)
    (hh : 1 ≤ h)
    (htot : ∀ a b, cmp a b ≤ 0 ∨ cmp b a ≤ 0)
    (htr : ∀ a b c, cmp a b ≤ 0 → cmp b c ≤ 0 → cmp a c ≤ 0)
    (aIter : Nat → Option κ) (aTree : Nat → Nat) (newKey : Option κ)
    (hinv : MergeInv cmp M aIter aTree) :
    (sorterNext cmp M aIter aTree newKey).2.1 1 < M ∧
    (∀ j, j < M → oLE cmp
        ((sorterNext cmp M aIter aTree newKey).1
          ((sorterNext cmp M aIter aTree newKey).2.1 1))
        ((sorterNext cmp M aIter aTree newKey).1 j) = true) ∧
    (((sorterNext cmp M aIter aTree newKey).1
        ((sorterNext cmp M aIter aTree newKey).2.1 1)).isSome = true →
      ∀ j, j < M → j < (sorterNext cmp M aIter aTree newKey).2.1 1 →
        oLE cmp ((sorterNext cmp M aIter aTree newKey).1 j)
          ((sorterNext cmp M aIter aTree newKey).1
            ((sorterNext cmp M aIter aTree newKey).2.1 1)) = false) := by
  have hM2 := pow_two_even M h hM hh
  have hB : 0 < 2 ^ (h - 1) := pow_pos (by norm_num) _
  have h1M : 1 < M := by omega
  have hpost := sorterNext_inv cmp M h hM hh htot htr aIter aTree newKey hinv
  have h1 := hpost 1 (Finset.mem_Ico.2 ⟨le_refl 1, h1M⟩)
  unfold TreeInv at h1
  rw [subIters_one M h hM hh] at h1
  obtain ⟨hm, hmin, htie⟩ := h1
  rw [Finset.mem_Ico] at hm
  refine ⟨hm.2, ?_, ?_⟩
  · intro j hj
    exact hmin j (Finset.mem_Ico.2 ⟨Nat.zero_le j, hj⟩)
  · intro hsome j hj hlt
    exact htie hsome j (Finset.mem_Ico.2 ⟨Nat.zero_le j, hj⟩) hlt

/-- The tie-break clause of claim C4 as stated: every iterator index whose
position is no greater than the selected one's lies at or above aTree[1]
(ties break toward the lower iterator index). -/
abbrev ClaimC4TieLow (cmp : κ → κ → Int) (M : Nat) (aIter : Nat → Option κ)
    (aTree : Nat → Nat) : Prop :=
  ∀ j, j < M → oLE cmp (aIter j) (aIter (aTree 1)) = true → aTree 1 ≤ j

/-- Counterexample to C4 as stated: a two-iterator merge state satisfying
the tournament invariant, iterator 0 on its last key and iterator 1 (an
unused slot) at EOF.  SorterNext advances iterator 0 to EOF and the leaf
comparison of two EOF iterators stores the HIGHER index, so aTree[1] = 1
although both iterators now compare equal (both EOF) and the claim's
tie-break toward the lower index would require aTree[1] = 0. -/
theorem sorterNext_tieLow_cex :
    MergeInv cmpNat 2 (fun j => if j = 0 then some 5 else none) (fun _ => 0) ∧
      ¬ ClaimC4TieLow cmpNat 2
        (sorterNext cmpNat 2 (fun j => if j = 0 then some 5 else none)
          (fun _ => 0) none).1
        (sorterNext cmpNat 2 (fun j => if j = 0 then some 5 else none)
          (fun _ => 0) none).2.1 := by
  constructor
  · decide
  · decide

/-- The iterators of the C4 witness: keys 5 and 9. -/
def iterC4w : Nat → Option Nat :=
  fun j => if j = 0 then some 5 else if j = 1 then some 9 else none

/-- Witness for C4 (amended): a two-iterator merge state with keys 5 and 9;
after advancing iterator 0 to key 7, aTree[1] indexes an iterator below M. -/
theorem sorterNext_min_witness :
    MergeInv cmpNat 2 iterC4w (fun _ => 0) ∧
      (sorterNext cmpNat 2 iterC4w (fun _ => 0) (some 7)).2.1 1 < 2 :=
  ⟨by decide,
   (sorterNext_min cmpNat 2 1 rfl (le_refl 1) cmpNat_total cmpNat_trans
     iterC4w (fun _ => 0) (some 7) (by decide)).1⟩

end Wendigo
